import Mathlib

/-!
Verification of the SpatialEval benchmark harness and dataset generator.

This file gives a shallow embedding, in Lean 4, of the scoring metrics
(src/spatialeval/harness/metrics.py), the dataset loader
(src/spatialeval/data.py), the evaluation loop
(src/spatialops/harness/evaluator.py) and the geometric/graph primitives of
the dataset generator (data/generate_dataset_v2.py), together with theorems
settling the specification claims about them.

Conventions of the embedding:
  - Python floats are modelled as exact rationals.  All numeric literals
    appearing in the source (0.5, 1e-6, ...) are dyadic/decimal constants for
    which rational arithmetic agrees with IEEE evaluation on the concrete
    inputs used in the theorems below.
  - Python exceptions are modelled with Except; a function that can raise
    returns Except String.
  - Python strings are modelled as Lean String / List Char; str.lower is
    modelled as Char.toLower (the benchmark text is ASCII), str.strip as
    String.trim.
  - The while loops of the A* and BFS primitives are modelled with an explicit
    fuel parameter; theorems below prove fuel sufficiency for every use, so
    the fuel never changes the observable result.
-/

namespace SpatialEval

set_option allowUnsafeReducibility true

set_option maxRecDepth 2000

attribute [local semireducible] Rat.add Rat.sub Rat.mul Rat.inv

/-! ## Python value model for ground truths -/

/-- Model of the dynamically typed ground-truth values: numeric (int or
float), string, list (of further ground truths), or anything else. -/
inductive PyVal where
  | num (q : ℚ)
  | str (s : String)
  | list (l : List PyVal)
  | other

/-! ## String helpers shared by the metrics -/

/-- Model of Python str.lower on ASCII text. -/
def strLower (s : String) : String := String.mk (s.data.map Char.toLower)

/-- Model of Python str.strip: remove whitespace from both ends. -/
def pyStrip (s : String) : String :=
  String.mk (((s.data.dropWhile Char.isWhitespace).reverse.dropWhile
    Char.isWhitespace).reverse)

/-- Step of the word counter used by compute_efficiency_score: Python
str.split() splits on whitespace runs and discards empty fields, so the
count is the number of maximal non-whitespace runs, computed by a left fold
carrying the count so far and whether the previous character was inside a
word. -/
def wcStep (acc : ℕ × Bool) (c : Char) : ℕ × Bool :=
  if c.isWhitespace then (acc.1, false)
  else (if acc.2 then acc.1 else acc.1 + 1, true)

/-- Word count as the number of maximal non-whitespace runs. -/
def wordCount (s : String) : ℕ := (s.data.foldl wcStep (0, false)).1

/-- Model of the Python substring test (needle in hay). -/
def strContains (hay needle : String) : Bool :=
  hay.data.tails.any (fun t => needle.data.isPrefixOf t)

/-- Model of Python str.endswith. -/
def strEndsWith (hay needle : String) : Bool := needle.data.isSuffixOf hay.data

/-- Model of Python max on two floats (kernel-reducible form). -/
def pyMax (a b : ℚ) : ℚ := if a ≤ b then b else a

/-- Model of Python min on two floats (kernel-reducible form). -/
def pyMin (a b : ℚ) : ℚ := if a ≤ b then a else b

/-- Model of Python abs on a float (kernel-reducible form). -/
def pyAbs (a : ℚ) : ℚ := if a < 0 then -a else a

/-! ## Number extraction (re.findall with pattern sign, digits, optional dot)

The Python code extracts number-like substrings with
re.findall of an optional minus sign, one or more digits, an optional
decimal point and further optional digits, then converts each with float().
The scan below is a character-level state machine producing, in order, the
numeric value of every maximal match; float() never fails on such a match,
so the machine yields values directly. -/

/-- Numeric value of a decimal digit character. -/
def digitVal (c : Char) : ℕ := c.toNat - 48

/-- State of the number scanner: outside a match, after a candidate minus
sign, inside the integer part, or inside the fractional part (holding the
value so far and the place value of the next fractional digit). -/
inductive ScanState where
  | idle
  | minus
  | intSt (neg : Bool) (v : ℕ)
  | fracSt (neg : Bool) (v : ℚ) (place : ℚ)
deriving DecidableEq

/-- Value of a finished token, if the state is inside a number. -/
def stVal : ScanState → Option ℚ
  | .intSt neg v => some (if neg then -(v : ℚ) else (v : ℚ))
  | .fracSt neg v _ => some (if neg then -v else v)
  | _ => none

/-- One transition of the number scanner: next state plus the value of a
token that the incoming character just terminated, if any. -/
def scanStep : ScanState → Char → ScanState × Option ℚ
  | .idle, c =>
      (if c.isDigit then .intSt false (digitVal c)
       else if c = '-' then .minus else .idle, none)
  | .minus, c =>
      (if c.isDigit then .intSt true (digitVal c)
       else if c = '-' then .minus else .idle, none)
  | .intSt neg v, c =>
      if c.isDigit then (.intSt neg (10 * v + digitVal c), none)
      else if c = '.' then (.fracSt neg (v : ℚ) (1/10), none)
      else if c = '-' then (.minus, stVal (.intSt neg v))
      else (.idle, stVal (.intSt neg v))
  | .fracSt neg v p, c =>
      if c.isDigit then (.fracSt neg (v + digitVal c * p) (p / 10), none)
      else if c = '-' then (.minus, stVal (.fracSt neg v p))
      else (.idle, stVal (.fracSt neg v p))

/-- Folding the scanner over a character list from a given state/accumulator. -/
def scanRun (st : ScanState) (acc : List ℚ) : List Char → ScanState × List ℚ
  | [] => (st, acc)
  | c :: cs =>
      let p := scanStep st c
      scanRun p.1 (acc ++ (p.2.map (fun v => [v])).getD []) cs

/-- Values of all number-like substrings of the text, in order of occurrence
(model of the re.findall call plus float conversion in compute_accuracy). -/
def scanFloats (l : List Char) : List ℚ :=
  let p := scanRun .idle [] l
  p.2 ++ ((stVal p.1).map (fun v => [v])).getD []

/-- Tolerance test applied to one extracted candidate number: exact within
absolute tolerance 1e-6 scores 1.0, within 1 percent relative error 0.9,
within 5 percent 0.7, otherwise the candidate is rejected. -/
def checkCandidate (gt x : ℚ) : Option ℚ :=
  if pyAbs (x - gt) < 1/1000000 then some 1
  else if gt ≠ 0 ∧ pyAbs (x - gt) / pyAbs gt < 1/100 then some (9/10)
  else if gt ≠ 0 ∧ pyAbs (x - gt) / pyAbs gt < 1/20 then some (7/10)
  else none

/-- Walk the candidate list (already reversed: last number first) and return
the score of the first acceptable candidate, 0 if none is acceptable. -/
def scanAnswer (gt : ℚ) : List ℚ → ℚ
  | [] => 0
  | x :: rest =>
      match checkCandidate gt x with
      | some s => s
      | none => scanAnswer gt rest

/-! ## compute_accuracy -/

mutual

/-- Model of compute_accuracy from src/spatialeval/harness/metrics.py:
numeric ground truths are matched against extracted numbers, last first,
with tolerance bands; string ground truths by case-insensitive containment
or suffix; list ground truths accept any member scoring above 0.5; anything
else scores 0. -/
def compute_accuracy (response : String) : PyVal → ℚ
  | .num q => scanAnswer q (scanFloats response.data).reverse
  | .str s =>
      let respLower := pyStrip (strLower response)
      let gtLower := pyStrip (strLower s)
      if strContains respLower gtLower then 1
      else if strEndsWith respLower gtLower then 1
      else 0
  | .list l => if anyAbovehalf response l then 1 else 0
  | .other => 0

/-- Helper for the list branch: does any member score strictly above 0.5. -/
def anyAbovehalf (response : String) : List PyVal → Bool
  | [] => false
  | g :: gs => decide ((1 : ℚ)/2 < compute_accuracy response g) || anyAbovehalf response gs

end

/-! ## compute_reasoning_score -/

/-- Fixed lexicon of reasoning indicator phrases. -/
def reasoning_indicators : List String :=
  ["first", "second", "then", "next", "therefore", "thus",
   "because", "since", "step", "calculate", "compute",
   "the formula", "using", "applying", "we get", "we have"]

/-- Number of indicator phrases occurring in the lowercased response. -/
def indicatorCount (response : String) : ℕ :=
  (reasoning_indicators.filter (fun ind => strContains (strLower response) ind)).length

/-- Operator characters of the arithmetic pattern. -/
def isOpChar (c : Char) : Bool :=
  c = '+' || c = '-' || c = '*' || c = '/' || c = '='

/-- Match of the arithmetic regex (digits, optional spaces, an operator,
optional spaces, digits) at the head of the character list. -/
def arithAt (l : List Char) : Bool :=
  let ds := l.takeWhile Char.isDigit
  let r1 := (l.dropWhile Char.isDigit).dropWhile Char.isWhitespace
  match ds, r1 with
  | _ :: _, c :: r2 =>
      isOpChar c &&
        (match r2.dropWhile Char.isWhitespace with
         | d :: _ => d.isDigit
         | [] => false)
  | _, _ => false

/-- Model of re.search for the arithmetic pattern: a match starting anywhere. -/
def hasArithPattern (s : String) : Bool := s.data.tails.any arithAt

/-- Separator class of the answer-marker regex: whitespace or a colon. -/
def isMarkerSep (c : Char) : Bool := c.isWhitespace || c = ':'

/-- Match of one marker word followed by at least one separator, at the head
of the character list. -/
def markerWordAt (w : String) (l : List Char) : Bool :=
  w.data.isPrefixOf l &&
    (match l.drop w.data.length with
     | c :: _ => isMarkerSep c
     | [] => false)

/-- Match of the answer/result/solution marker pattern at the head. -/
def markerAt (l : List Char) : Bool :=
  markerWordAt "answer" l || markerWordAt "result" l || markerWordAt "solution" l

/-- Model of re.search for the structured-output marker on the lowercased
response. -/
def hasAnswerMarker (s : String) : Bool := s.data.tails.any markerAt

/-- Model of compute_reasoning_score: a 0.5 base, plus 0.05 per indicator
phrase capped at 0.3, plus 0.1 for an arithmetic pattern, plus 0.1 for an
answer marker, the total clamped to at most 1. -/
def compute_reasoning_score (response : String) : ℚ :=
  let score : ℚ := 1/2
  let score := score + pyMin ((indicatorCount response : ℚ) * (5/100)) (3/10)
  let score := if hasArithPattern response then score + 1/10 else score
  let score := if hasAnswerMarker (strLower response) then score + 1/10 else score
  pyMin score 1

/-! ## compute_efficiency_score -/

/-- Model of compute_efficiency_score: 1.0 for 50 to 200 words; below 50
words the larger of 0.5 and word_count/50; above 200 the larger of 0.3 and
1 - (word_count - 200)/500. -/
def compute_efficiency_score (response : String) : ℚ :=
  let wc := wordCount response
  if 50 ≤ wc ∧ wc ≤ 200 then 1
  else if wc < 50 then pyMax (1/2) ((wc : ℚ) / 50)
  else pyMax (3/10) (1 - ((wc : ℚ) - 200) / 500)

/-! ## compute_spatialeval_score -/

/-- Python round to the nearest integer, halves to even (banker rounding). -/
def pyRoundInt (x : ℚ) : ℤ :=
  if x - x.floor < 1/2 then x.floor
  else if 1/2 < x - x.floor then x.floor + 1
  else if x.floor % 2 = 0 then x.floor else x.floor + 1

/-- Python round(x, 2). -/
def pyRound2 (x : ℚ) : ℚ := (pyRoundInt (x * 100) : ℚ) / 100

/-- Default weight tuple (0.5, 0.3, 0.2) of compute_spatialeval_score. -/
def defaultWeights : ℚ × ℚ × ℚ := (1/2, 3/10, 1/5)

/-- Model of compute_spatialeval_score: the weighted sum of the three
component scores, scaled to 0..100 and rounded to two decimals.  The source
performs no validation of the weights. -/
def compute_spatialeval_score (accuracy reasoning efficiency : ℚ)
    (weights : ℚ × ℚ × ℚ) : ℚ :=
  pyRound2 ((accuracy * weights.1 + reasoning * weights.2.1 +
    efficiency * weights.2.2) * 100)

/-! ## Dataset loading (src/spatialeval/data.py)

The loader walks the requested categories and difficulties, validating each
against the known lists and raising ValueError on the first unknown one;
for valid pairs it reads the per-pair task file if it exists, substituting
an empty task list otherwise.  The file system is modelled as a function
from (category, difficulty) to the optional content of the task file, and
ValueError as the error branch of Except. -/

/-- Raw task record as stored in a tasks.json file. -/
structure TaskRec where
  task_id : String
  category : String
  difficulty : String
  prompt : String
  ground_truth : PyVal

/-- Category list of src/spatialeval/data.py. -/
def CATEGORIES : List String :=
  ["coordinate_understanding", "navigation_pathfinding", "real_estate",
   "network_infrastructure", "geometric_reasoning", "distance_computation"]

/-- Difficulty list of src/spatialeval/data.py. -/
def DIFFICULTIES : List String := ["easy", "medium", "hard"]

/-- Model of the file system: content of data_dir/category/difficulty/tasks.json
when the file exists. -/
def FileSystem : Type := String → String → Option (List TaskRec)

/-- Python dict insertion on an association list: replace the value at an
existing key in place, otherwise append the binding. -/
def dictInsert {κ α : Type} [DecidableEq κ] (m : List (κ × α)) (k : κ) (v : α) :
    List (κ × α) :=
  if m.any (fun p => p.1 = k) then
    m.map (fun p => if p.1 = k then (k, v) else p)
  else m ++ [(k, v)]

/-- Inner loop of load_dataset over the requested difficulties for one
category: validate each difficulty, then read the task file or default to
an empty list. -/
def loadDiffs (fs : FileSystem) (category : String) :
    List String → Except String (List (String × List TaskRec))
  | [] => .ok []
  | d :: ds =>
      if d ∉ DIFFICULTIES then
        .error ("Unknown difficulty: " ++ d)
      else do
        let rest ← loadDiffs fs category ds
        .ok (dictInsert rest d ((fs category d).getD []))

/-- Outer loop of load_dataset over the requested categories. -/
def loadCats (fs : FileSystem) (difficulties : List String) :
    List String → Except String (List (String × List (String × List TaskRec)))
  | [] => .ok []
  | c :: cs =>
      if c ∉ CATEGORIES then
        .error ("Unknown category: " ++ c)
      else do
        let inner ← loadDiffs fs c difficulties
        let rest ← loadCats fs difficulties cs
        .ok (dictInsert rest c inner)

/-- Model of load_dataset: omitted category and difficulty arguments default
to the full known lists, then the nested validate-and-read loops run. -/
def load_dataset (fs : FileSystem) (categories : Option (List String))
    (difficulties : Option (List String)) :
    Except String (List (String × List (String × List TaskRec))) :=
  loadCats fs (difficulties.getD DIFFICULTIES) (categories.getD CATEGORIES)

/-! ## Evaluation loop (src/spatialops/harness/evaluator.py)

Evaluator.run flattens the loaded dataset into (category, difficulty, task)
triples, then for each triple calls the model on the task prompt and scores
the response.  The source wraps the model call in no try/except, so an
exception from the model callable propagates out of the loop; the model is
therefore embedded as a function returning Except, and the loop as a
monadic traversal in Except that stops at the first error. -/

/-- One evaluation row as appended to Evaluator.results. -/
structure EvalResult where
  task_id : String
  category : String
  difficulty : String
  prompt : String
  ground_truth : PyVal
  response : String
  accuracy : ℚ
  reasoning_score : ℚ
  efficiency_score : ℚ

/-- Model of the model_fn callable: a response string or a raised exception. -/
def ModelFn : Type := String → Except String String

/-- Scoring of one task once a response string has been obtained (the body
of the per-task loop of Evaluator.run). -/
def scoreTask (category difficulty : String) (t : TaskRec) (response : String) :
    EvalResult :=
  { task_id := t.task_id
    category := category
    difficulty := difficulty
    prompt := t.prompt
    ground_truth := t.ground_truth
    response := response
    accuracy := compute_accuracy response t.ground_truth
    reasoning_score := compute_reasoning_score response
    efficiency_score := compute_efficiency_score response }

/-- Model of the per-task loop of Evaluator.run over the flattened task
list: each iteration calls the model on the prompt and scores the response;
an exception from the model callable propagates, aborting the traversal. -/
def runTasks (model : ModelFn) :
    List (String × String × TaskRec) → Except String (List EvalResult)
  | [] => .ok []
  | (category, difficulty, t) :: rest => do
      let response ← model t.prompt
      let rs ← runTasks model rest
      .ok (scoreTask category difficulty t response :: rs)

/-! ## Grid pathfinding (a_star of data/generate_dataset_v2.py)

The generator's A* works on a 2D occupancy grid (lists of rows, 0 free and
1 blocked), a start cell and an end cell.  It keeps a lazily-deleted
priority heap of (f_score, cell) pairs ordered by the Python tuple order
and a g_score dict, pops the minimum, returns g_score of the end cell when
it is popped, relaxes the four axis neighbors otherwise, and returns -1
when the heap empties.  The heap is modelled as a list with a pop-minimum
operation (observably equal to heapq under the total tuple order), the
dict as an association list, and the while loop gets an explicit fuel
parameter that the theorems below prove ample, so the fuel never changes
the result. -/

/-- Heap entry: an f_score and a cell. -/
abbrev AItem : Type := ℤ × (ℤ × ℤ)

/-- The g_score dict. -/
abbrev GMap : Type := List ((ℤ × ℤ) × ℤ)

/-- Python tuple order on heap entries. -/
def prioLe (a b : AItem) : Bool :=
  decide (a.1 < b.1 ∨ (a.1 = b.1 ∧
    (a.2.1 < b.2.1 ∨ (a.2.1 = b.2.1 ∧ a.2.2 ≤ b.2.2))))

/-- Minimum of a nonempty collection of heap entries. -/
def minItem : AItem → List AItem → AItem
  | best, [] => best
  | best, x :: xs => minItem (if prioLe best x then best else x) xs

/-- Model of heapq.heappop: remove a minimal entry under the tuple order. -/
def popMin : List AItem → Option (AItem × List AItem)
  | [] => none
  | x :: xs =>
      let m := minItem x xs
      some (m, (x :: xs).erase m)

/-- Occupancy lookup grid[r][c] (only used at in-bounds cells). -/
def gridAt (grid : List (List ℕ)) (c : ℤ × ℤ) : ℕ :=
  (((grid.get? c.1.toNat).getD []).get? c.2.toNat).getD 0

/-- Lookup in the g_score dict. -/
def gLookup (m : GMap) (c : ℤ × ℤ) : Option ℤ :=
  ((m.find? (fun p => p.1 = c)).map Prod.snd)

/-- Manhattan-distance heuristic of the source, on integer cells. -/
def manhattanZ (a b : ℤ × ℤ) : ℤ :=
  (if a.1 - b.1 < 0 then b.1 - a.1 else a.1 - b.1) +
    (if a.2 - b.2 < 0 then b.2 - a.2 else a.2 - b.2)

/-- The four axis directions, in the order the source scans them. -/
def dirs : List (ℤ × ℤ) := [(0, 1), (0, -1), (1, 0), (-1, 0)]

/-- Relaxation of one neighbor of the current cell: skip it when out of
bounds or blocked; otherwise insert or decrease its g_score when the
tentative score improves it, pushing a fresh heap entry.  The g_score dict
read of the current cell is stable through the scan because every updated
key is a neighbor, never the current cell. -/
def relaxOne (grid : List (List ℕ)) (rows cols : ℤ) (e current : ℤ × ℤ)
    (st : GMap × List AItem) (d : ℤ × ℤ) : GMap × List AItem :=
  let nb := (current.1 + d.1, current.2 + d.2)
  if 0 ≤ nb.1 ∧ nb.1 < rows ∧ 0 ≤ nb.2 ∧ nb.2 < cols then
    if gridAt grid nb = 1 then st
    else
      let tentative := (gLookup st.1 current).getD 0 + 1
      match gLookup st.1 nb with
      | some old =>
          if tentative < old then
            (dictInsert st.1 nb tentative,
             st.2 ++ [(tentative + manhattanZ nb e, nb)])
          else st
      | none =>
          (dictInsert st.1 nb tentative,
           st.2 ++ [(tentative + manhattanZ nb e, nb)])
  else st

/-- Body of the A* while loop, with fuel: pop the minimal entry, return the
g_score of the end cell when popped, scan the four neighbors otherwise;
return -1 when the heap empties.  The dict access g_score[current] cannot
fail in the source because every queued cell has been given a g_score;
getD 0 models the access (the invariant proofs show the key present). -/
def aStarLoop (grid : List (List ℕ)) (rows cols : ℤ) (e : ℤ × ℤ) :
    ℕ → List AItem → GMap → Option ℤ
  | 0, _, _ => none
  | fuel + 1, open_set, gmap =>
      match popMin open_set with
      | none => some (-1)
      | some (item, rest) =>
          if item.2 = e then some ((gLookup gmap item.2).getD 0)
          else
            let st := dirs.foldl (relaxOne grid rows cols e item.2) (gmap, rest)
            aStarLoop grid rows cols e fuel st.2 st.1

/-- Fuel that the sufficiency lemmas prove ample for every run. -/
def aStarFuel (grid : List (List ℕ)) : ℕ :=
  (grid.length * (grid.headD []).length + 1) *
    (grid.length * (grid.headD []).length + 1) + 3

/-- Model of a_star: rows and cols from the grid shape, the singleton heap
holding the start at f_score 0, and the start's g_score 0. -/
def a_star (grid : List (List ℕ)) (s e : ℤ × ℤ) : Option ℤ :=
  aStarLoop grid grid.length (grid.headD []).length e (aStarFuel grid)
    [(0, s)] [(s, 0)]

/-- In-bounds predicate of the source's neighbor check. -/
def cellIn (rows cols : ℤ) (c : ℤ × ℤ) : Prop :=
  0 ≤ c.1 ∧ c.1 < rows ∧ 0 ≤ c.2 ∧ c.2 < cols

/-- One axis step between cells. -/
def cellAdj (c n : ℤ × ℤ) : Prop :=
  ∃ d ∈ dirs, n = (c.1 + d.1, c.2 + d.2)

/-- Obstacle-free N by N grid. -/
def emptyGrid (n : ℕ) : List (List ℕ) :=
  List.replicate n (List.replicate n 0)

/-- Finite set of in-bounds cells. -/
def cellsFin (rows cols : ℤ) : Finset (ℤ × ℤ) :=
  (Finset.Ico 0 rows) ×ˢ (Finset.Ico 0 cols)

/-- Decreasing measure of the A* loop: heap size, plus the g_score values,
plus a weighted count of cells missing from the dict. -/
def aMeasure (rows cols : ℤ) (open_set : List AItem) (gmap : GMap) : ℕ :=
  open_set.length + (gmap.map (fun p => p.2.toNat)).sum +
    ((cellsFin rows cols).card + 1) * ((cellsFin rows cols).card - gmap.length)

/-- Invariant of the A* loop on an arbitrary grid.  Keys of the g_score
dict are distinct in-bounds cells with values between 0 and the key count;
every heap entry's cell is a key whose current value plus heuristic bounds
the entry's f_score; every key either has a fresh heap entry (f_score
equal to current value plus heuristic) or has been fully relaxed (each
free in-bounds neighbor is a key within value + 1); the end cell, as long
as it is a key, keeps a fresh heap entry (popping one would have returned);
and the start is a key. -/
structure AInv (grid : List (List ℕ)) (rows cols : ℤ) (s e : ℤ × ℤ)
    (open_set : List AItem) (gmap : GMap) : Prop where
  keysNodup : (gmap.map Prod.fst).Nodup
  keysCells : ∀ p ∈ gmap, cellIn rows cols p.1
  valsRange : ∀ p ∈ gmap, 0 ≤ p.2 ∧ p.2 ≤ (gmap.length : ℤ)
  valsLB : ∀ p ∈ gmap, manhattanZ s p.1 ≤ p.2
  itemsKeys : ∀ it ∈ open_set, ∃ v, gLookup gmap it.2 = some v ∧
    (v + manhattanZ it.2 e ≤ it.1 ∨ it = ((0 : ℤ), s))
  relaxedOrPending : ∀ c v, gLookup gmap c = some v →
    (∃ it ∈ open_set, it.2 = c ∧
      (it.1 = v + manhattanZ c e ∨ it = ((0 : ℤ), s))) ∨
    (∀ n, cellAdj c n → cellIn rows cols n → gridAt grid n ≠ 1 →
      ∃ w, gLookup gmap n = some w ∧ w ≤ v + 1)
  endFresh : ∀ v, gLookup gmap e = some v →
    ∃ it ∈ open_set, it.2 = e ∧
      (it.1 = v + manhattanZ e e ∨ it = ((0 : ℤ), s))
  startZero : gLookup gmap s = some 0

/-- Invariant carried through the neighbor scan of one popped cell: the
core dict and heap facts of AInv, with the relaxed-or-pending alternative
excluded for the current cell (whose relaxation is in progress) and the
current cell's g_score pinned. -/
structure ScanInv (grid : List (List ℕ)) (rows cols : ℤ) (s e cur : ℤ × ℤ)
    (vc : ℤ) (st : GMap × List AItem) : Prop where
  keysNodup : (st.1.map Prod.fst).Nodup
  keysCells : ∀ p ∈ st.1, cellIn rows cols p.1
  valsRange : ∀ p ∈ st.1, 0 ≤ p.2 ∧ p.2 ≤ (st.1.length : ℤ)
  valsLB : ∀ p ∈ st.1, manhattanZ s p.1 ≤ p.2
  itemsKeys : ∀ it ∈ st.2, ∃ v, gLookup st.1 it.2 = some v ∧
    (v + manhattanZ it.2 e ≤ it.1 ∨ it = ((0 : ℤ), s))
  relaxedOrPending : ∀ c v, gLookup st.1 c = some v → c ≠ cur →
    (∃ it ∈ st.2, it.2 = c ∧
      (it.1 = v + manhattanZ c e ∨ it = ((0 : ℤ), s))) ∨
    (∀ n, cellAdj c n → cellIn rows cols n → gridAt grid n ≠ 1 →
      ∃ w, gLookup st.1 n = some w ∧ w ≤ v + 1)
  endFresh : ∀ v, gLookup st.1 e = some v →
    ∃ it ∈ st.2, it.2 = e ∧
      (it.1 = v + manhattanZ e e ∨ it = ((0 : ℤ), s))
  startZero : gLookup st.1 s = some 0
  curVal : gLookup st.1 cur = some vc

/-- The quantity that the scan keeps from growing: heap entries plus
g_score total plus weighted missing-key count. -/
def scanMeasure (rows cols : ℤ) (st : GMap × List AItem) : ℕ :=
  st.2.length + (st.1.map (fun p => p.2.toNat)).sum +
    ((cellsFin rows cols).card + 1) * ((cellsFin rows cols).card - st.1.length)

/-- Free path through the grid: consecutive cells one axis step apart, all
in bounds and unblocked. -/
def IsFreePath (grid : List (List ℕ)) (rows cols : ℤ) (p : List (ℤ × ℤ)) : Prop :=
  List.Chain' cellAdj p ∧ ∀ c ∈ p, cellIn rows cols c ∧ gridAt grid c ≠ 1

/-! ## Navigation generator (generate_navigation_pathfinding, medium)

The medium branch draws an obstacle count between 3 and 6, accumulates
that many distinct interior cells in a set by repeated draws from 1..4 in
each coordinate (an unbounded while loop, modelled with fuel), builds the
6 by 6 grid, runs A*, and if A* reports no path, retries the whole
generation by an unbounded recursive call (modelled by a retry budget).
The prompt and task-id strings are plain formatting of the drawn data and
are not modelled; the generated record is the drawn obstacle set and the
computed ground-truth path length.  A random stream is modelled as a
function from draw index to a raw value; randint(a, b) maps the raw value
into a..b, so every sequence of in-range draws is realized by some
stream. -/

/-- Outcome of the medium navigation generator: the drawn obstacle set and
the ground-truth shortest path length. -/
structure NavResult where
  obstacles : List (ℕ × ℕ)
  path_length : ℤ

/-- Model of random.randint(a, b) reading one draw from the stream. -/
def randint (a b : ℕ) (σ : ℕ → ℕ) (i : ℕ) : ℕ := a + σ i % (b - a + 1)

/-- The obstacle-accumulation while loop: draw interior cells until the
set reaches the target size; fuel models the unbounded loop (none means
the loop has not finished within the fuel). -/
def drawObstacles (target : ℕ) : ℕ → (ℕ → ℕ) → ℕ → List (ℕ × ℕ) →
    Option (List (ℕ × ℕ) × ℕ)
  | 0, _, _, _ => none
  | fuel + 1, σ, i, acc =>
      if acc.length < target then
        let ox := randint 1 4 σ i
        let oy := randint 1 4 σ (i + 1)
        drawObstacles target fuel σ (i + 2)
          (if (ox, oy) ∈ acc then acc else acc ++ [(ox, oy)])
      else some (acc, i)

/-- The 6 by 6 grid with the drawn obstacles marked. -/
def gridOf (obs : List (ℕ × ℕ)) : List (List ℕ) :=
  (List.range 6).map (fun r =>
    (List.range 6).map (fun c => if (r, c) ∈ obs then 1 else 0))

/-- Model of the medium branch of generate_navigation_pathfinding: draw
the obstacle count and the obstacle set, run A*, and on a -1 result retry
the whole generation (the source recurses with no cap; the budget models
the recursion, with none for budget exhaustion). -/
def genNavMedium : ℕ → ℕ → (ℕ → ℕ) → ℕ → Option NavResult
  | budget, fuel, σ, i =>
      let numObs := 3 + σ i % 4
      match drawObstacles numObs fuel σ (i + 1) [] with
      | none => none
      | some (obs, j) =>
          match a_star (gridOf obs) (0, 0) (5, 5) with
          | none => none
          | some v =>
              if v = -1 then
                match budget with
                | 0 => none
                | b + 1 => genNavMedium b fuel σ j
              else some { obstacles := obs, path_length := v }

/-! ## Graph connectivity (bfs_connected of data/generate_dataset_v2.py)

The generator's BFS takes an adjacency dict from int to list of int, a
start node and an end node, and walks a FIFO queue with a visited set,
returning True when the end node is popped and False when the queue
empties.  The dict is modelled as an association list, the set as a
duplicate-free list, and the while loop with an explicit fuel parameter;
the theorems below prove the chosen fuel sufficient, so the fuel never
changes the result. -/

/-- Adjacency structure of the Python dict from int to list of int. -/
abbrev Graph : Type := List (ℤ × List ℤ)

/-- Model of graph.get(node, []). -/
def adjOf (g : Graph) (x : ℤ) : List ℤ :=
  ((g.find? (fun p => p.1 == x)).map Prod.snd).getD []

/-- Every node mentioned by the adjacency structure: keys and neighbors. -/
def nodesOf (g : Graph) : List ℤ :=
  g.foldr (fun p acc => p.1 :: (p.2 ++ acc)) []

/-- Total length of all adjacency lists. -/
def totalAdj (g : Graph) : ℕ := (g.map (fun p => p.2.length)).sum

/-- Body of the BFS while loop: pop the queue head; return True on the end
node; skip already visited nodes; otherwise mark visited and push the
not-yet-visited neighbors. -/
def bfsLoop (g : Graph) (e : ℤ) : ℕ → List ℤ → List ℤ → Option Bool
  | 0, _, _ => none
  | fuel + 1, visited, queue =>
      match queue with
      | [] => some false
      | node :: rest =>
          if node = e then some true
          else if node ∈ visited then bfsLoop g e fuel visited rest
          else
            bfsLoop g e fuel (visited ++ [node])
              (rest ++ (adjOf g node).filter
                (fun n => decide (n ∉ visited ++ [node])))

/-- Decreasing measure of the BFS loop: queue length plus a weighted count
of the not-yet-visited nodes. -/
def bfsMeasure (g : Graph) (s : ℤ) (visited queue : List ℤ) : ℕ :=
  queue.length +
    ((s :: nodesOf g).toFinset \ visited.toFinset).card * (totalAdj g + 1)

/-- Fuel that bfsLoop_spec proves ample for every run from the start node. -/
def bfsFuel (g : Graph) (s : ℤ) : ℕ :=
  (s :: nodesOf g).toFinset.card * (totalAdj g + 1) + 2

/-- Model of bfs_connected: True immediately when start equals end, else
run the queue loop from the singleton queue. -/
def bfs_connected (g : Graph) (s e : ℤ) : Option Bool :=
  if s = e then some true
  else bfsLoop g e (bfsFuel g s) [] [s]

/-- One adjacency step of the graph. -/
def adjRel (g : Graph) (x y : ℤ) : Prop := y ∈ adjOf g x

/-- Reachability along adjacency steps. -/
def Reach (g : Graph) (s t : ℤ) : Prop := Relation.ReflTransGen (adjRel g) s t

/-- Loop invariant of the BFS: the visited list is duplicate-free, visited
and queued nodes live in the node universe and are reachable from the
start, the end node is never in the visited set (popping it returns
first), every visited node's neighbors are visited or queued, and the
start is visited or queued. -/
structure BfsInv (g : Graph) (s e : ℤ) (visited queue : List ℤ) : Prop where
  nodup : visited.Nodup
  vU : ∀ v ∈ visited, v ∈ s :: nodesOf g
  qU : ∀ q ∈ queue, q ∈ s :: nodesOf g
  vReach : ∀ v ∈ visited, Reach g s v
  qReach : ∀ q ∈ queue, Reach g s q
  eNot : e ∉ visited
  frontier : ∀ v ∈ visited, ∀ n ∈ adjOf g v, n ∈ visited ∨ n ∈ queue
  start : s ∈ visited ∨ s ∈ queue

/-! ## Python decimal rendering of integers

The self-match claim scores str(ground_truth) against the ground truth.
For int ground truths Python renders an optional minus sign followed by the
decimal digits; pyIntStr below is that rendering.  (Float ground truths may
render in scientific notation, such as str(1e-05) being the five characters
1e-05, which the number regex cannot recover; see the C5 theorems.) -/

/-- Decimal digit characters of a natural number, most significant first. -/
def natChars (n : ℕ) : List Char :=
  if _h : n < 10 then [Char.ofNat (48 + n)]
  else natChars (n / 10) ++ [Char.ofNat (48 + n % 10)]
decreasing_by exact Nat.div_lt_self (by omega) (by omega)

/-- Model of Python str on an int. -/
def pyIntStr (g : ℤ) : String :=
  if g < 0 then String.mk ('-' :: natChars g.natAbs) else String.mk (natChars g.toNat)

/-- Decimal accumulator: fold the digits onto an initial value. -/
def dacc (v : ℕ) (ds : List Char) : ℕ :=
  ds.foldl (fun a c => 10 * a + digitVal c) v

/-! ## Concrete fixtures used by the theorems -/

/-- Ten-word response used to probe the short-response branch. -/
def tenWords : String := "a a a a a a a a a a"

/-- Characters of n space-separated one-letter words. -/
def repWords : ℕ → List Char
  | 0 => []
  | 1 => ['w']
  | n + 2 => 'w' :: ' ' :: repWords (n + 1)

/-- Response of n space-separated one-letter words. -/
def nWords (n : ℕ) : String := String.mk (repWords n)

/-- Response of 100 words. -/
def hundredWords : String := nWords 100

/-- Response of 700 words. -/
def sevenHundredWords : String := nWords 700

/-- File system with no task files at all. -/
def fsEmpty : FileSystem := fun _ _ => none

/-- Minimal concrete task record. -/
def sampleTask : TaskRec :=
  { task_id := "CU_easy_0001"
    category := "coordinate_understanding"
    difficulty := "easy"
    prompt := "In which quadrant is the point (3, 4) located?"
    ground_truth := .str "I" }

/-- Model callable that raises on every prompt. -/
def raisingModel : ModelFn := fun _ => .error "API failure"

/-- Second concrete task record, with a different prompt. -/
def otherTask : TaskRec :=
  { task_id := "DC_easy_0001"
    category := "distance_computation"
    difficulty := "easy"
    prompt := "What is the Manhattan distance between (0, 0) and (2, 3)?"
    ground_truth := .num 5 }

/-- Model callable that raises exactly on the prompt of sampleTask. -/
def flakyModel : ModelFn := fun p =>
  if p = sampleTask.prompt then .error "boom" else .ok "The answer is 5"

/-- Concrete symmetric two-node graph used by the BFS witness. -/
def gSym : Graph := [(0, [1]), (1, [0])]

/-- The k-th cell of the staircase walk of the (m+2) by (m+2) empty grid:
down the first row to the last column, then down the last column (the
indices run 0 .. 2*m+2). -/
def stairCell (m k : ℕ) : ℤ × ℤ :=
  if k ≤ m + 1 then ((0 : ℤ), (k : ℤ))
  else ((k : ℤ) - ((m : ℤ) + 1), (m : ℤ) + 1)

/-- The border walk of the 6 by 6 generator grid from (0,0) to (5,5):
along the first row, then down the last column.  It avoids the 1..4
interior where obstacles are drawn. -/
def borderPath : List (ℤ × ℤ) :=
  [(0, 0), (0, 1), (0, 2), (0, 3), (0, 4), (0, 5),
   (1, 5), (2, 5), (3, 5), (4, 5), (5, 5)]

/-- A concrete random stream for the generator: obstacle count 3, then the
interior cells (2,2), (3,3), (4,4). -/
def sigmaNav : ℕ → ℕ := fun n => [0, 1, 1, 2, 2, 3, 3].getD n 0

/-- The constant random stream, on which the obstacle-draw loop never
finishes. -/
def zeroStream : ℕ → ℕ := fun _ => 0

instance cellInDecidable (rows cols : ℤ) (c : ℤ × ℤ) :
    Decidable (cellIn rows cols c) :=
  inferInstanceAs (Decidable (0 ≤ c.1 ∧ c.1 < rows ∧ 0 ≤ c.2 ∧ c.2 < cols))

instance cellAdjDecidable (c n : ℤ × ℤ) : Decidable (cellAdj c n) :=
  inferInstanceAs (Decidable (∃ d ∈ dirs, n = (c.1 + d.1, c.2 + d.2)))

/-! ## Supporting lemmas -/

/-- Folding the word-count step over n repeated words adds n to the count
when starting outside a word. -/
theorem wcFold_repWords (n k : ℕ) :
    (List.foldl wcStep (k, false) (repWords n)).1 = k + n := by
  induction n generalizing k with
  | zero => rfl
  | succ m ih =>
      cases m with
      | zero => rfl
      | succ m0 =>
          rw [show repWords (m0 + 2) = 'w' :: ' ' :: repWords (m0 + 1) from rfl,
            List.foldl_cons, List.foldl_cons,
            show wcStep (k, false) 'w' = (k + 1, true) from rfl,
            show wcStep (k + 1, true) ' ' = (k + 1, false) from rfl, ih]
          omega

/-- Word count of the n-word fixture. -/
theorem wordCount_nWords (n : ℕ) : wordCount (nWords n) = n := by
  have := wcFold_repWords n 0
  simpa [wordCount, nWords] using this

/-- Expansion of the numeric branch of compute_accuracy. -/
theorem compute_accuracy_num (response : String) (q : ℚ) :
    compute_accuracy response (.num q) =
      scanAnswer q (scanFloats response.data).reverse := by
  simp [compute_accuracy]

/-- Expansion of the list branch of compute_accuracy. -/
theorem compute_accuracy_list (response : String) (l : List PyVal) :
    compute_accuracy response (.list l) = if anyAbovehalf response l then 1 else 0 := by
  simp [compute_accuracy]

/-- The list helper is false exactly when no member scores above one half. -/
theorem anyAbovehalf_eq_false (response : String) (l : List PyVal)
    (h : ∀ g ∈ l, compute_accuracy response g ≤ 1/2) :
    anyAbovehalf response l = false := by
  induction l with
  | nil => rfl
  | cons g gs ih =>
      have hg := h g (by simp)
      have hgs := ih (fun x hx => h x (by simp [hx]))
      simp [anyAbovehalf, hgs]
      linarith

/-- Digit characters built from values below ten are digits with the same
value. -/
theorem digitChar_spec (d : ℕ) (hd : d < 10) :
    (Char.ofNat (48 + d)).isDigit = true ∧ digitVal (Char.ofNat (48 + d)) = d := by
  interval_cases d <;> exact ⟨by decide, by decide⟩

/-- The decimal rendering of a natural number is a nonempty list of digits. -/
theorem natChars_digits (n : ℕ) :
    natChars n ≠ [] ∧ ∀ c ∈ natChars n, c.isDigit = true := by
  induction n using Nat.strong_induction_on with
  | _ n ih =>
      rw [natChars]
      split
      · next h =>
          refine ⟨by simp, ?_⟩
          intro c hc
          rw [List.mem_singleton] at hc
          subst hc
          exact (digitChar_spec n h).1
      · next h =>
          have hlt : n / 10 < n := Nat.div_lt_self (by omega) (by omega)
          refine ⟨by simp, ?_⟩
          intro c hc
          rcases List.mem_append.mp hc with h1 | h1
          · exact (ih _ hlt).2 c h1
          · rw [List.mem_singleton] at h1
            subst h1
            exact (digitChar_spec (n % 10) (Nat.mod_lt _ (by omega))).1

/-- Value of the decimal rendering under the digit accumulator. -/
theorem dacc_natChars (n : ℕ) :
    ∀ v, dacc v (natChars n) = v * 10 ^ (natChars n).length + n := by
  induction n using Nat.strong_induction_on with
  | _ n ih =>
      intro v
      rw [natChars]
      split
      · next h =>
          show dacc v [Char.ofNat (48 + n)] = v * 10 ^ ([Char.ofNat (48 + n)]).length + n
          rw [dacc, List.foldl_cons, List.foldl_nil, (digitChar_spec n h).2]
          simp
          ring
      · next h =>
          have hlt : n / 10 < n := Nat.div_lt_self (by omega) (by omega)
          rw [dacc, List.foldl_append]
          rw [show List.foldl (fun a c => 10 * a + digitVal c) v (natChars (n / 10)) =
            dacc v (natChars (n / 10)) from rfl, ih _ hlt v]
          rw [List.foldl_cons, List.foldl_nil,
            (digitChar_spec (n % 10) (Nat.mod_lt _ (by omega))).2]
          rw [List.length_append, List.length_singleton, pow_succ]
          have hmod : 10 * (n / 10) + n % 10 = n := Nat.div_add_mod n 10
          ring_nf
          omega

/-- The scanner stays inside the integer state while consuming digits,
accumulating their value. -/
theorem scanRun_digits (ds : List Char) (h : ∀ c ∈ ds, c.isDigit = true) :
    ∀ (neg : Bool) (v : ℕ) (acc : List ℚ),
      scanRun (.intSt neg v) acc ds = (.intSt neg (dacc v ds), acc) := by
  induction ds with
  | nil => intro neg v acc; rfl
  | cons c cs ih =>
      intro neg v acc
      have hc : c.isDigit = true := h c (by simp)
      rw [scanRun]
      rw [show scanStep (.intSt neg v) c = (.intSt neg (10 * v + digitVal c), none) by
        simp [scanStep, hc]]
      rw [show ((none : Option ℚ).map (fun v => [v])).getD [] = [] from rfl]
      rw [List.append_nil]
      rw [ih (fun x hx => h x (by simp [hx]))]
      rfl

/-- Scanning a nonempty all-digit string yields exactly its decimal value. -/
theorem scanFloats_digits (c : Char) (cs : List Char)
    (h : ∀ x ∈ c :: cs, x.isDigit = true) :
    scanFloats (c :: cs) = [(dacc 0 (c :: cs) : ℚ)] := by
  have hc : c.isDigit = true := h c (by simp)
  rw [scanFloats, scanRun]
  rw [show scanStep .idle c = (.intSt false (digitVal c), none) by simp [scanStep, hc]]
  rw [show ((none : Option ℚ).map (fun v => [v])).getD [] = [] from rfl, List.append_nil]
  rw [scanRun_digits cs (fun x hx => h x (by simp [hx]))]
  rw [show dacc (digitVal c) cs = dacc 0 (c :: cs) by simp [dacc]]
  rfl

/-- Scanning a minus sign followed by a nonempty all-digit string yields the
negated decimal value. -/
theorem scanFloats_neg_digits (c : Char) (cs : List Char)
    (h : ∀ x ∈ c :: cs, x.isDigit = true) :
    scanFloats ('-' :: c :: cs) = [-(dacc 0 (c :: cs) : ℚ)] := by
  have hc : c.isDigit = true := h c (by simp)
  rw [scanFloats, scanRun]
  rw [show scanStep .idle '-' = (.minus, none) from rfl]
  rw [show ((none : Option ℚ).map (fun v => [v])).getD [] = [] from rfl, List.append_nil]
  rw [scanRun]
  rw [show scanStep .minus c = (.intSt true (digitVal c), none) by simp [scanStep, hc]]
  rw [show ((none : Option ℚ).map (fun v => [v])).getD [] = [] from rfl, List.append_nil]
  rw [scanRun_digits cs (fun x hx => h x (by simp [hx]))]
  rw [show dacc (digitVal c) cs = dacc 0 (c :: cs) by simp [dacc]]
  rfl

/-- A candidate equal to the ground truth passes the exact tolerance test. -/
theorem checkCandidate_self (q : ℚ) : checkCandidate q q = some 1 := by
  unfold checkCandidate pyAbs
  norm_num

/-- Unfolding equation of the candidate walk on a nonempty list. -/
theorem scanAnswer_cons (gt x : ℚ) (rest : List ℚ) :
    scanAnswer gt (x :: rest) =
      (match checkCandidate gt x with
       | some s => s
       | none => scanAnswer gt rest) := rfl

/-- Walking a single candidate equal to the ground truth scores 1. -/
theorem scanAnswer_self (q x : ℚ) (hx : x = q) : scanAnswer q [x] = 1 := by
  subst hx
  rw [scanAnswer_cons, checkCandidate_self]

/-! ### Heap and dict lemmas for the A* proofs -/

/-- The minimum scan returns an element of the collection. -/
theorem minItem_mem (best : AItem) (xs : List AItem) :
    minItem best xs ∈ best :: xs := by
  induction xs generalizing best with
  | nil => simp [minItem]
  | cons x xs ih =>
      rw [minItem]
      rcases List.mem_cons.mp (ih (if prioLe best x then best else x)) with h | h
      · rw [h]
        split
        · simp
        · simp
      · simp [h]

/-- The minimum scan bounds every element's f_score from below. -/
theorem minItem_le (best : AItem) (xs : List AItem) :
    ∀ x ∈ best :: xs, (minItem best xs).1 ≤ x.1 := by
  induction xs generalizing best with
  | nil =>
      intro x hx
      rw [List.mem_singleton] at hx
      simp [minItem, hx]
  | cons y ys ih =>
      intro x hx
      have hb : (if prioLe best y then best else y).1 ≤ best.1 ∧
          (if prioLe best y then best else y).1 ≤ y.1 := by
        by_cases h : prioLe best y = true
        · rw [if_pos h]
          unfold prioLe at h
          have := of_decide_eq_true h
          constructor
          · omega
          · omega
        · rw [if_neg h]
          have h2 := eq_false_of_ne_true h
          unfold prioLe at h2
          have := of_decide_eq_false h2
          constructor
          · omega
          · omega
      rw [minItem]
      rcases List.mem_cons.mp hx with h1 | h1
      · subst h1
        exact le_trans (ih _ _ (by simp)) hb.1
      · rcases List.mem_cons.mp h1 with h2 | h2
        · subst h2
          exact le_trans (ih _ _ (by simp)) hb.2
        · exact ih _ x (by simp [h2])

/-- Popping returns a member together with the list minus one copy of it. -/
theorem popMin_spec (l : List AItem) (m : AItem) (rest : List AItem)
    (h : popMin l = some (m, rest)) :
    m ∈ l ∧ rest = l.erase m ∧ (∀ x ∈ l, m.1 ≤ x.1) := by
  rcases l with _ | ⟨x, xs⟩
  · simp [popMin] at h
  · rw [popMin] at h
    simp only [Option.some.injEq, Prod.mk.injEq] at h
    obtain ⟨hm, hrest⟩ := h
    subst hm
    exact ⟨minItem_mem x xs, hrest.symm, minItem_le x xs⟩

/-- Popping fails exactly on the empty heap. -/
theorem popMin_eq_none (l : List AItem) : popMin l = none ↔ l = [] := by
  rcases l with _ | ⟨x, xs⟩ <;> simp [popMin]

/-- Lookup after inserting the same key. -/
theorem gLookup_dictInsert_self (m : GMap) (c : ℤ × ℤ) (v : ℤ) :
    gLookup (dictInsert m c v) c = some v := by
  unfold dictInsert
  split
  · next hex =>
      unfold gLookup
      induction m with
      | nil => simp at hex
      | cons p ps ih =>
          rw [List.map_cons]
          by_cases hp : p.1 = c
          · rw [if_pos hp, List.find?_cons_of_pos _ (by simp)]
            rfl
          · rw [if_neg hp, List.find?_cons_of_neg _ (by simp [hp])]
            refine ih ?_
            rcases List.any_eq_true.mp hex with ⟨q, hq, hq2⟩
            have hqc : q.1 = c := of_decide_eq_true hq2
            rcases List.mem_cons.mp hq with h | h
            · exact absurd (h ▸ hqc) hp
            · exact List.any_eq_true.mpr ⟨q, h, by simp [hqc]⟩
  · next hex =>
      unfold gLookup
      rw [List.find?_append]
      have h1 : m.find? (fun p => decide (p.1 = c)) = none := by
        rw [List.find?_eq_none]
        intro p hp hdec
        exact hex (List.any_eq_true.mpr ⟨p, hp, hdec⟩)
      rw [h1]
      rw [show List.find? (fun p => decide (p.1 = c)) [(c, v)] = some (c, v) from by
        rw [List.find?_cons_of_pos _ (by simp)]]
      rfl

/-- Lookup after inserting a different key. -/
theorem gLookup_dictInsert_ne (m : GMap) (c c2 : ℤ × ℤ) (v : ℤ) (hne : c2 ≠ c) :
    gLookup (dictInsert m c v) c2 = gLookup m c2 := by
  unfold dictInsert
  split
  · next hex =>
      unfold gLookup
      congr 1
      clear hex
      induction m with
      | nil => rfl
      | cons p ps ih =>
          rw [List.map_cons]
          by_cases hp : p.1 = c
          · rw [if_pos hp]
            rw [List.find?_cons_of_neg _ (by simp [Ne.symm hne]),
              List.find?_cons_of_neg _ (by simp [hp, Ne.symm hne])]
            exact ih
          · rw [if_neg hp]
            by_cases hc2 : p.1 = c2
            · rw [List.find?_cons_of_pos _ (by simp [hc2]),
                List.find?_cons_of_pos _ (by simp [hc2])]
            · rw [List.find?_cons_of_neg _ (by simp [hc2]),
                List.find?_cons_of_neg _ (by simp [hc2])]
              exact ih
  · unfold gLookup
    rw [List.find?_append]
    rw [show List.find? (fun p => decide (p.1 = c2)) [(c, v)] = none from by
      rw [List.find?_cons_of_neg _ (by simp [Ne.symm hne])]
      rfl]
    rw [Option.or_none]

/-- A successful lookup names an entry of the dict. -/
theorem gLookup_mem (m : GMap) (c : ℤ × ℤ) (v : ℤ) (h : gLookup m c = some v) :
    (c, v) ∈ m := by
  unfold gLookup at h
  rcases hf : m.find? (fun p => decide (p.1 = c)) with _ | q
  · rw [hf] at h
    simp at h
  · rw [hf] at h
    have hq : q ∈ m := List.mem_of_find?_eq_some hf
    have hq1 : q.1 = c := by
      have := List.find?_some hf
      exact of_decide_eq_true this
    have hq2 : q.2 = v := by
      have h2 : some q.2 = some v := h
      injection h2
    have : q = (c, v) := Prod.ext hq1 hq2
    exact this ▸ hq

/-- A key of the dict has a successful lookup. -/
theorem gLookup_of_mem_keys (m : GMap) (c : ℤ × ℤ)
    (h : c ∈ m.map Prod.fst) : ∃ v, gLookup m c = some v := by
  induction m with
  | nil => simp at h
  | cons p ps ih =>
      by_cases hp : p.1 = c
      · exact ⟨p.2, by unfold gLookup; rw [List.find?_cons_of_pos _ (by simp [hp])]; simp⟩
      · rw [List.map_cons, List.mem_cons] at h
        rcases h with h | h
        · exact absurd h.symm hp
        · obtain ⟨v, hv⟩ := ih h
          refine ⟨v, ?_⟩
          unfold gLookup at hv ⊢
          rw [List.find?_cons_of_neg _ (by simp [hp])]
          exact hv

/-- The membership test of dictInsert agrees with key membership. -/
theorem dictAny_iff (m : GMap) (c : ℤ × ℤ) :
    (m.any (fun p => decide (p.1 = c)) = true) ↔ c ∈ m.map Prod.fst := by
  rw [List.any_eq_true]
  constructor
  · rintro ⟨p, hp, hdec⟩
    have := of_decide_eq_true hdec
    exact List.mem_map.mpr ⟨p, hp, this⟩
  · intro h
    rcases List.mem_map.mp h with ⟨p, hp, hpc⟩
    exact ⟨p, hp, by simp [hpc]⟩

/-- Key list of dictInsert: unchanged on an existing key, extended by the
new key otherwise. -/
theorem dictInsert_keys (m : GMap) (c : ℤ × ℤ) (v : ℤ) :
    (dictInsert m c v).map Prod.fst =
      (if c ∈ m.map Prod.fst then m.map Prod.fst
       else m.map Prod.fst ++ [c]) := by
  unfold dictInsert
  split
  · next hex =>
      rw [if_pos ((dictAny_iff m c).mp hex)]
      rw [List.map_map]
      clear hex
      induction m with
      | nil => rfl
      | cons p ps ih =>
          rw [List.map_cons, List.map_cons]
          rw [show ((Prod.fst ∘ fun p => if p.1 = c then (c, v) else p) p) = p.1 from by
            by_cases hp : p.1 = c
            · simp [hp]
            · simp [hp]]
          rw [ih]
  · next hex =>
      rw [if_neg (fun hmem => hex ((dictAny_iff m c).mpr hmem))]
      simp

/-- Entries of dictInsert: the new binding, or an old binding at another key. -/
theorem dictInsert_mem (m : GMap) (c : ℤ × ℤ) (v : ℤ) (p : (ℤ × ℤ) × ℤ)
    (h : p ∈ dictInsert m c v) : p = (c, v) ∨ (p ∈ m ∧ p.1 ≠ c) := by
  unfold dictInsert at h
  split at h
  · rcases List.mem_map.mp h with ⟨q, hq, hqp⟩
    by_cases hqc : q.1 = c
    · rw [if_pos hqc] at hqp
      exact Or.inl hqp.symm
    · rw [if_neg hqc] at hqp
      exact Or.inr ⟨hqp ▸ hq, hqp ▸ hqc⟩
  · rcases List.mem_append.mp h with h1 | h1
    · right
      refine ⟨h1, ?_⟩
      next hex =>
      intro hc
      exact hex ((dictAny_iff m c).mpr (List.mem_map.mpr ⟨p, h1, hc⟩))
    · rw [List.mem_singleton] at h1
      exact Or.inl h1

/-- Length of dictInsert. -/
theorem dictInsert_length (m : GMap) (c : ℤ × ℤ) (v : ℤ) :
    (dictInsert m c v).length =
      (if c ∈ m.map Prod.fst then m.length else m.length + 1) := by
  unfold dictInsert
  split
  · next hex =>
      rw [if_pos ((dictAny_iff m c).mp hex), List.length_map]
  · next hex =>
      rw [if_neg (fun hmem => hex ((dictAny_iff m c).mpr hmem))]
      simp

/-- Replacement at an absent key leaves the value images unchanged. -/
theorem map_replace_sum (ps : GMap) (c : ℤ × ℤ) (v : ℤ)
    (hnot : c ∉ ps.map Prod.fst) :
    ps.map ((fun x => x.2.toNat) ∘ fun q => if q.1 = c then (c, v) else q) =
      ps.map (fun x => x.2.toNat) := by
  induction ps with
  | nil => rfl
  | cons q qs ih =>
      have hq1 : q.1 ≠ c := fun hq => hnot (by simp [hq])
      have hnot2 : c ∉ qs.map Prod.fst := fun h =>
        hnot (by rw [List.map_cons]; exact List.mem_cons_of_mem _ h)
      rw [List.map_cons, List.map_cons]
      rw [show ((fun x => x.2.toNat) ∘ fun r =>
        if r.1 = c then (c, v) else r) q = q.2.toNat from by simp [hq1]]
      rw [ih hnot2]

/-- Value sum of dictInsert over an existing key with duplicate-free keys. -/
theorem dictInsert_sum (m : GMap) (c : ℤ × ℤ) (v old : ℤ)
    (hnod : (m.map Prod.fst).Nodup) (hold : gLookup m c = some old) :
    ((dictInsert m c v).map (fun p => p.2.toNat)).sum + old.toNat =
      (m.map (fun p => p.2.toNat)).sum + v.toNat := by
  have hmem : (c, old) ∈ m := gLookup_mem m c old hold
  unfold dictInsert
  rw [if_pos ((dictAny_iff m c).mpr (List.mem_map.mpr ⟨(c, old), hmem, rfl⟩))]
  rw [List.map_map]
  induction m with
  | nil => simp at hmem
  | cons p ps ih =>
      rw [List.map_cons, List.map_cons, List.sum_cons, List.sum_cons]
      by_cases hp : p.1 = c
      · have hp2 : p.2 = old := by
          unfold gLookup at hold
          rw [List.find?_cons_of_pos _ (by simp [hp])] at hold
          have h2 : some p.2 = some old := hold
          injection h2
        rw [show ((fun x => x.2.toNat) ∘ fun q =>
          if q.1 = c then (c, v) else q) p = v.toNat from by simp [hp]]
        have hnotin : c ∉ ps.map Prod.fst := by
          rw [List.map_cons, hp] at hnod
          exact (List.nodup_cons.mp hnod).1
        rw [map_replace_sum ps c v hnotin, hp2]
        omega
      · have hold2 : gLookup ps c = some old := by
          unfold gLookup at hold ⊢
          rw [List.find?_cons_of_neg _ (by simp [hp])] at hold
          exact hold
        have hnod2 : (ps.map Prod.fst).Nodup := by
          rw [List.map_cons] at hnod
          exact (List.nodup_cons.mp hnod).2
        have hmem2 : (c, old) ∈ ps := by
          rcases List.mem_cons.mp hmem with h | h
          · exact absurd (by rw [← h]) hp
          · exact h
        rw [show ((fun x => x.2.toNat) ∘ fun q =>
          if q.1 = c then (c, v) else q) p = p.2.toNat from by simp [hp]]
        have := ih hnod2 hold2 hmem2
        omega

/-- A duplicate-free list inside a finite set is no longer than the set. -/
theorem nodup_length_le_card (l : List (ℤ × ℤ)) (F : Finset (ℤ × ℤ))
    (hnod : l.Nodup) (hsub : ∀ x ∈ l, x ∈ F) : l.length ≤ F.card := by
  calc l.length = l.toFinset.card := (List.toFinset_card_of_nodup hnod).symm
    _ ≤ F.card := Finset.card_le_card (fun x hx => hsub x (List.mem_toFinset.mp hx))

/-- Key distinctness survives dictInsert. -/
theorem dictInsert_keysNodup (m : GMap) (c : ℤ × ℤ) (v : ℤ)
    (hnod : (m.map Prod.fst).Nodup) :
    ((dictInsert m c v).map Prod.fst).Nodup := by
  rw [dictInsert_keys]
  split
  · exact hnod
  · next hnm =>
      rw [List.nodup_append]
      exact ⟨hnod, List.nodup_singleton c, by simpa using fun h => hnm h⟩

/-- In-bounds cells are members of the cell set. -/
theorem mem_cellsFin (rows cols : ℤ) (c : ℤ × ℤ) (h : cellIn rows cols c) :
    c ∈ cellsFin rows cols := by
  obtain ⟨h1, h2, h3, h4⟩ := h
  unfold cellsFin
  rw [Finset.mem_product, Finset.mem_Ico, Finset.mem_Ico]
  exact ⟨⟨h1, h2⟩, h3, h4⟩

/-- One axis step changes the heuristic by at most one. -/
theorem manhattanZ_adj (a c n : ℤ × ℤ) (h : cellAdj c n) :
    manhattanZ a n ≤ manhattanZ a c + 1 := by
  obtain ⟨d, hd, hn⟩ := h
  subst hn
  rcases hd2 : d with ⟨dx, dy⟩
  subst hd2
  unfold dirs at hd
  rcases List.mem_cons.mp hd with h1 | h1
  · rw [show dx = 0 from congrArg Prod.fst h1, show dy = 1 from congrArg Prod.snd h1]
    unfold manhattanZ
    split_ifs <;> omega
  rcases List.mem_cons.mp h1 with h2 | h2
  · rw [show dx = 0 from congrArg Prod.fst h2, show dy = -1 from congrArg Prod.snd h2]
    unfold manhattanZ
    split_ifs <;> omega
  rcases List.mem_cons.mp h2 with h3 | h3
  · rw [show dx = 1 from congrArg Prod.fst h3, show dy = 0 from congrArg Prod.snd h3]
    unfold manhattanZ
    split_ifs <;> omega
  rcases List.mem_cons.mp h3 with h4 | h4
  · rw [show dx = -1 from congrArg Prod.fst h4, show dy = 0 from congrArg Prod.snd h4]
    unfold manhattanZ
    split_ifs <;> omega
  · simp at h4

/-- The heuristic is never negative. -/
theorem manhattanZ_nonneg (a b : ℤ × ℤ) : 0 ≤ manhattanZ a b := by
  unfold manhattanZ
  split_ifs <;> omega

/-- The heuristic of a cell to itself vanishes. -/
theorem manhattanZ_self (a : ℤ × ℤ) : manhattanZ a a = 0 := by
  unfold manhattanZ
  split_ifs <;> omega

/-- An axis step moves to a different cell. -/
theorem cellAdj_ne (c n : ℤ × ℤ) (h : cellAdj c n) : n ≠ c := by
  obtain ⟨d, hd, hn⟩ := h
  subst hn
  unfold dirs at hd
  intro hc
  have h1 := congrArg Prod.fst hc
  have h2 := congrArg Prod.snd hc
  simp only at h1 h2
  rcases List.mem_cons.mp hd with h | h
  · rw [show d = ((0 : ℤ), (1 : ℤ)) from h] at h2
    omega
  rcases List.mem_cons.mp h with h | h
  · rw [show d = ((0 : ℤ), (-1 : ℤ)) from h] at h2
    omega
  rcases List.mem_cons.mp h with h | h
  · rw [show d = ((1 : ℤ), (0 : ℤ)) from h] at h1
    omega
  rcases List.mem_cons.mp h with h | h
  · rw [show d = ((-1 : ℤ), (0 : ℤ)) from h] at h1
    omega
  · simp at h

/-- Case analysis of one relaxation: the state is unchanged because the
neighbor is out of bounds, blocked or not improved, or the neighbor is
inserted or decreased with a fresh heap push. -/
theorem relaxOne_cases (grid : List (List ℕ)) (rows cols : ℤ) (e cur : ℤ × ℤ)
    (st : GMap × List AItem) (d : ℤ × ℤ) :
    (relaxOne grid rows cols e cur st d = st ∧
      (¬ cellIn rows cols (cur.1 + d.1, cur.2 + d.2) ∨
       gridAt grid (cur.1 + d.1, cur.2 + d.2) = 1 ∨
       ∃ old, gLookup st.1 (cur.1 + d.1, cur.2 + d.2) = some old ∧
         old ≤ (gLookup st.1 cur).getD 0 + 1)) ∨
    (cellIn rows cols (cur.1 + d.1, cur.2 + d.2) ∧
     gridAt grid (cur.1 + d.1, cur.2 + d.2) ≠ 1 ∧
     relaxOne grid rows cols e cur st d =
       (dictInsert st.1 (cur.1 + d.1, cur.2 + d.2) ((gLookup st.1 cur).getD 0 + 1),
        st.2 ++ [((gLookup st.1 cur).getD 0 + 1 +
          manhattanZ (cur.1 + d.1, cur.2 + d.2) e, (cur.1 + d.1, cur.2 + d.2))]) ∧
     (gLookup st.1 (cur.1 + d.1, cur.2 + d.2) = none ∨
      ∃ old, gLookup st.1 (cur.1 + d.1, cur.2 + d.2) = some old ∧
        (gLookup st.1 cur).getD 0 + 1 < old)) := by
  unfold relaxOne
  by_cases hbnd : 0 ≤ cur.1 + d.1 ∧ cur.1 + d.1 < rows ∧
      0 ≤ cur.2 + d.2 ∧ cur.2 + d.2 < cols
  · rw [if_pos hbnd]
    by_cases hblk : gridAt grid (cur.1 + d.1, cur.2 + d.2) = 1
    · rw [if_pos hblk]
      exact Or.inl ⟨rfl, Or.inr (Or.inl hblk)⟩
    · rw [if_neg hblk]
      rcases hl : gLookup st.1 (cur.1 + d.1, cur.2 + d.2) with _ | old
      · exact Or.inr ⟨hbnd, hblk, rfl, Or.inl rfl⟩
      · by_cases himp : (gLookup st.1 cur).getD 0 + 1 < old
        · refine Or.inr ⟨hbnd, hblk, ?_, Or.inr ⟨old, rfl, himp⟩⟩
          dsimp only
          rw [if_pos himp]
        · refine Or.inl ⟨?_, Or.inr (Or.inr ⟨old, rfl, by omega⟩)⟩
          dsimp only
          rw [if_neg himp]
  · rw [if_neg hbnd]
    exact Or.inl ⟨rfl, Or.inl hbnd⟩

/-- Value sum of dictInsert over a fresh key. -/
theorem dictInsert_sum_new (m : GMap) (c : ℤ × ℤ) (v : ℤ)
    (h : c ∉ m.map Prod.fst) :
    ((dictInsert m c v).map (fun p => p.2.toNat)).sum =
      (m.map (fun p => p.2.toNat)).sum + v.toNat := by
  unfold dictInsert
  rw [if_neg (fun hex => h ((dictAny_iff m c).mp hex))]
  rw [List.map_append, List.sum_append]
  simp

/-- One relaxation preserves the scan invariant, never raises a g_score,
keeps all heap entries, leaves the processed neighbor (when in bounds and
free) as a key within value vc + 1, and does not grow the scan measure. -/
theorem relaxOne_step (grid : List (List ℕ)) (rows cols : ℤ) (s e cur : ℤ × ℤ)
    (vc : ℤ) (st : GMap × List AItem) (d : ℤ × ℤ) (hd : d ∈ dirs)
    (hSI : ScanInv grid rows cols s e cur vc st) :
    ScanInv grid rows cols s e cur vc (relaxOne grid rows cols e cur st d) ∧
    (∀ n w, gLookup st.1 n = some w →
      ∃ w2, gLookup (relaxOne grid rows cols e cur st d).1 n = some w2 ∧ w2 ≤ w) ∧
    (∀ it ∈ st.2, it ∈ (relaxOne grid rows cols e cur st d).2) ∧
    (cellIn rows cols (cur.1 + d.1, cur.2 + d.2) →
      gridAt grid (cur.1 + d.1, cur.2 + d.2) ≠ 1 →
      ∃ w, gLookup (relaxOne grid rows cols e cur st d).1
        (cur.1 + d.1, cur.2 + d.2) = some w ∧ w ≤ vc + 1) ∧
    scanMeasure rows cols (relaxOne grid rows cols e cur st d) ≤
      scanMeasure rows cols st := by
  have hvc0 : 0 ≤ vc := (hSI.valsRange _ (gLookup_mem _ _ _ hSI.curVal)).1
  have hvclen : vc ≤ (st.1.length : ℤ) :=
    (hSI.valsRange _ (gLookup_mem _ _ _ hSI.curVal)).2
  have hT : (gLookup st.1 cur).getD 0 = vc := by rw [hSI.curVal]; rfl
  have hadj : cellAdj cur (cur.1 + d.1, cur.2 + d.2) := ⟨d, hd, rfl⟩
  have hnbcur : (cur.1 + d.1, cur.2 + d.2) ≠ cur := cellAdj_ne _ _ hadj
  rcases relaxOne_cases grid rows cols e cur st d with ⟨heq, hwhy⟩ |
    ⟨hbnd, hfree, heq, hup⟩
  · rw [heq]
    refine ⟨hSI, fun n w h => ⟨w, h, le_refl w⟩, fun it h => h, ?_, le_refl _⟩
    intro hin hfr
    rcases hwhy with h | h | ⟨old, hold, hle⟩
    · exact absurd hin h
    · exact absurd h hfr
    · exact ⟨old, hold, by omega⟩
  · rw [heq]
    set nb := (cur.1 + d.1, cur.2 + d.2) with hnbdef
    have hnbs : nb ≠ s := by
      intro hns
      rcases hup with hnone | ⟨old, hold, himp⟩
      · rw [hns, hSI.startZero] at hnone
        exact Option.noConfusion hnone
      · rw [hns, hSI.startZero] at hold
        have : old = 0 := by injection hold.symm
        omega
    have hlen_le : ∀ w, gLookup st.1 nb = some w → w ≤ (st.1.length : ℤ) :=
      fun w hw => (hSI.valsRange _ (gLookup_mem _ _ _ hw)).2
    have hmono : ∀ n w, gLookup st.1 n = some w →
        ∃ w2, gLookup (dictInsert st.1 nb ((gLookup st.1 cur).getD 0 + 1)) n =
          some w2 ∧ w2 ≤ w := by
      intro n w hw
      by_cases hn : n = nb
      · subst hn
        rcases hup with hnone | ⟨old, hold, himp⟩
        · rw [hw] at hnone
          exact Option.noConfusion hnone
        · have hwold : w = old := by
            rw [hw] at hold
            injection hold
          exact ⟨(gLookup st.1 cur).getD 0 + 1, gLookup_dictInsert_self _ _ _,
            by omega⟩
      · exact ⟨w, by rw [gLookup_dictInsert_ne _ _ _ _ hn]; exact hw, le_refl w⟩
    have hself : gLookup (dictInsert st.1 nb ((gLookup st.1 cur).getD 0 + 1)) nb =
        some ((gLookup st.1 cur).getD 0 + 1) := gLookup_dictInsert_self _ _ _
    have hSI2 : ScanInv grid rows cols s e cur vc
        (dictInsert st.1 nb ((gLookup st.1 cur).getD 0 + 1),
         st.2 ++ [((gLookup st.1 cur).getD 0 + 1 + manhattanZ nb e, nb)]) := by
      have hlen' : (st.1.length : ℤ) ≤
          ((dictInsert st.1 nb ((gLookup st.1 cur).getD 0 + 1)).length : ℤ) := by
        rw [dictInsert_length]
        split <;> omega
      refine ⟨?_, ?_, ?_, ?_, ?_, ?_, ?_, ?_, ?_⟩
      · exact dictInsert_keysNodup _ _ _ hSI.keysNodup
      · intro p hp
        rcases dictInsert_mem _ _ _ _ hp with hnew | ⟨holdm, _⟩
        · rw [hnew]
          exact hbnd
        · exact hSI.keysCells p holdm
      · intro p hp
        rcases dictInsert_mem _ _ _ _ hp with hnew | ⟨holdm, _⟩
        · subst hnew
          constructor
          · dsimp only
            omega
          · dsimp only
            rcases hup with hnone | ⟨old, hold, himp⟩
            · have hnotk : nb ∉ st.1.map Prod.fst := by
                intro hk
                obtain ⟨w, hw⟩ := gLookup_of_mem_keys _ _ hk
                rw [hw] at hnone
                exact Option.noConfusion hnone
              rw [dictInsert_length, if_neg hnotk]
              push_cast
              omega
            · have hk : nb ∈ st.1.map Prod.fst :=
                List.mem_map.mpr ⟨(nb, old), gLookup_mem _ _ _ hold, rfl⟩
              rw [dictInsert_length, if_pos hk]
              have := hlen_le old hold
              omega
        · have h1 := hSI.valsRange p holdm
          exact ⟨h1.1, le_trans h1.2 hlen'⟩
      · intro p hp
        rcases dictInsert_mem _ _ _ _ hp with hnew | ⟨holdm, _⟩
        · subst hnew
          dsimp only
          have h1 := manhattanZ_adj s cur nb hadj
          have h2 : manhattanZ s cur ≤ vc :=
            hSI.valsLB (cur, vc) (gLookup_mem _ _ _ hSI.curVal)
          omega
        · exact hSI.valsLB p holdm
      · intro it hit
        rcases List.mem_append.mp hit with h1 | h1
        · obtain ⟨v, hv, hvf⟩ := hSI.itemsKeys it h1
          obtain ⟨w2, hw2, hw2le⟩ := hmono it.2 v hv
          refine ⟨w2, hw2, ?_⟩
          rcases hvf with hvf | hvf
          · exact Or.inl (by omega)
          · exact Or.inr hvf
        · rw [List.mem_singleton] at h1
          subst h1
          refine ⟨(gLookup st.1 cur).getD 0 + 1, hself, Or.inl ?_⟩
          dsimp only
          omega
      · intro c v hv hcne
        by_cases hcnb : c = nb
        · rw [hcnb, hself] at hv
          have hveq : v = (gLookup st.1 cur).getD 0 + 1 := by injection hv.symm
          left
          refine ⟨((gLookup st.1 cur).getD 0 + 1 + manhattanZ nb e, nb),
            List.mem_append.mpr (Or.inr (by simp)), hcnb.symm, Or.inl ?_⟩
          dsimp only
          rw [hveq, hcnb]
        · rw [gLookup_dictInsert_ne _ _ _ _ hcnb] at hv
          rcases hSI.relaxedOrPending c v hv hcne with ⟨it, hit, hitc, hitf⟩ | hr
          · exact Or.inl ⟨it, List.mem_append.mpr (Or.inl hit), hitc, hitf⟩
          · right
            intro n hn hnin hnfr
            obtain ⟨w, hw, hwle⟩ := hr n hn hnin hnfr
            obtain ⟨w2, hw2, hw2le⟩ := hmono n w hw
            exact ⟨w2, hw2, by omega⟩
      · intro v hv
        by_cases henb : e = nb
        · rw [henb, hself] at hv
          have hveq : v = (gLookup st.1 cur).getD 0 + 1 := by injection hv.symm
          refine ⟨((gLookup st.1 cur).getD 0 + 1 + manhattanZ nb e, nb),
            List.mem_append.mpr (Or.inr (by simp)), henb.symm, Or.inl ?_⟩
          dsimp only
          rw [hveq, henb]
        · rw [gLookup_dictInsert_ne _ _ _ _ henb] at hv
          obtain ⟨it, hit, hite, hitf⟩ := hSI.endFresh v hv
          exact ⟨it, List.mem_append.mpr (Or.inl hit), hite, hitf⟩
      · dsimp only
        rw [gLookup_dictInsert_ne _ _ _ _ (Ne.symm hnbs)]
        exact hSI.startZero
      · dsimp only
        rw [gLookup_dictInsert_ne _ _ _ _ (Ne.symm hnbcur)]
        exact hSI.curVal
    refine ⟨hSI2, hmono, fun it h => List.mem_append.mpr (Or.inl h), ?_, ?_⟩
    · intro _ _
      exact ⟨(gLookup st.1 cur).getD 0 + 1, hself, by omega⟩
    · unfold scanMeasure
      dsimp only
      rw [List.length_append, List.length_singleton]
      rcases hup with hnone | ⟨old, hold, himp⟩
      · have hnotk : nb ∉ st.1.map Prod.fst := by
          intro hk
          obtain ⟨w, hw⟩ := gLookup_of_mem_keys _ _ hk
          rw [hw] at hnone
          exact Option.noConfusion hnone
        rw [dictInsert_sum_new _ _ _ hnotk, dictInsert_length, if_neg hnotk]
        have hlenN : st.1.length + 1 ≤ (cellsFin rows cols).card := by
          have hnod2 := dictInsert_keysNodup st.1 nb
            ((gLookup st.1 cur).getD 0 + 1) hSI.keysNodup
          have hsub2 : ∀ x ∈ (dictInsert st.1 nb
              ((gLookup st.1 cur).getD 0 + 1)).map Prod.fst,
              x ∈ cellsFin rows cols := by
            intro x hx
            rcases List.mem_map.mp hx with ⟨p, hp, hpx⟩
            rcases dictInsert_mem _ _ _ _ hp with hnew | ⟨holdm, _⟩
            · rw [← hpx, hnew]
              exact mem_cellsFin rows cols nb hbnd
            · exact hpx ▸ mem_cellsFin rows cols p.1 (hSI.keysCells p holdm)
          have := nodup_length_le_card _ _ hnod2 hsub2
          rw [List.length_map, dictInsert_length, if_neg hnotk] at this
          exact this
        have htn : ((gLookup st.1 cur).getD 0 + 1).toNat ≤ st.1.length + 1 := by
          rw [hT]
          omega
        set N := (cellsFin rows cols).card
        set L := st.1.length
        have hNL : N - L = (N - (L + 1)) + 1 := by omega
        rw [hNL, Nat.mul_succ]
        omega
      · have hk : nb ∈ st.1.map Prod.fst :=
          List.mem_map.mpr ⟨(nb, old), gLookup_mem _ _ _ hold, rfl⟩
        have hsum := dictInsert_sum st.1 nb ((gLookup st.1 cur).getD 0 + 1) old
          hSI.keysNodup hold
        rw [dictInsert_length, if_pos hk]
        have hold0 : 0 ≤ old := (hSI.valsRange _ (gLookup_mem _ _ _ hold)).1
        have htlt : ((gLookup st.1 cur).getD 0 + 1).toNat < old.toNat := by
          rw [hT] at himp ⊢
          omega
        omega

/-- Folding the relaxation over any sublist of the four directions keeps
the scan invariant, never raises a g_score, keeps heap entries, leaves
every processed free in-bounds neighbor keyed within vc + 1, and does not
grow the scan measure. -/
theorem scanFold_step (grid : List (List ℕ)) (rows cols : ℤ) (s e cur : ℤ × ℤ)
    (vc : ℤ) :
    ∀ ds : List (ℤ × ℤ), (∀ d ∈ ds, d ∈ dirs) →
    ∀ st : GMap × List AItem, ScanInv grid rows cols s e cur vc st →
    ScanInv grid rows cols s e cur vc
      (ds.foldl (relaxOne grid rows cols e cur) st) ∧
    (∀ n w, gLookup st.1 n = some w →
      ∃ w2, gLookup (ds.foldl (relaxOne grid rows cols e cur) st).1 n =
        some w2 ∧ w2 ≤ w) ∧
    (∀ it ∈ st.2, it ∈ (ds.foldl (relaxOne grid rows cols e cur) st).2) ∧
    (∀ d ∈ ds, cellIn rows cols (cur.1 + d.1, cur.2 + d.2) →
      gridAt grid (cur.1 + d.1, cur.2 + d.2) ≠ 1 →
      ∃ w, gLookup (ds.foldl (relaxOne grid rows cols e cur) st).1
        (cur.1 + d.1, cur.2 + d.2) = some w ∧ w ≤ vc + 1) ∧
    scanMeasure rows cols (ds.foldl (relaxOne grid rows cols e cur) st) ≤
      scanMeasure rows cols st := by
  intro ds
  induction ds with
  | nil =>
      intro _ st hSI
      exact ⟨hSI, fun n w h => ⟨w, h, le_refl w⟩, fun it h => h,
        by simp, le_refl _⟩
  | cons d ds ih =>
      intro hds st hSI
      have hd : d ∈ dirs := hds d (List.mem_cons_self d ds)
      obtain ⟨hSI1, hmono1, hkeep1, hnb1, hm1⟩ :=
        relaxOne_step grid rows cols s e cur vc st d hd hSI
      obtain ⟨hSI2, hmono2, hkeep2, hnb2, hm2⟩ :=
        ih (fun x hx => hds x (List.mem_cons_of_mem d hx))
          (relaxOne grid rows cols e cur st d) hSI1
      rw [List.foldl_cons]
      refine ⟨hSI2, ?_, ?_, ?_, le_trans hm2 hm1⟩
      · intro n w hw
        obtain ⟨w1, hw1, hle1⟩ := hmono1 n w hw
        obtain ⟨w2, hw2, hle2⟩ := hmono2 n w1 hw1
        exact ⟨w2, hw2, le_trans hle2 hle1⟩
      · intro it hit
        exact hkeep2 it (hkeep1 it hit)
      · intro x hx hin hfr
        rcases List.mem_cons.mp hx with hxd | hxd
        · subst hxd
          obtain ⟨w, hw, hwle⟩ := hnb1 hin hfr
          obtain ⟨w2, hw2, hle2⟩ := hmono2 _ w hw
          exact ⟨w2, hw2, le_trans hle2 hwle⟩
        · exact hnb2 x hxd hin hfr

/-- One full iteration of the A* loop body on a popped non-end cell
preserves the loop invariant and strictly decreases the loop measure. -/
theorem aStar_iterate (grid : List (List ℕ)) (rows cols : ℤ) (s e : ℤ × ℤ)
    (open_set : List AItem) (gmap : GMap)
    (hA : AInv grid rows cols s e open_set gmap)
    (m : AItem) (rest : List AItem)
    (hpop : popMin open_set = some (m, rest)) (hne : m.2 ≠ e) :
    AInv grid rows cols s e
      (dirs.foldl (relaxOne grid rows cols e m.2) (gmap, rest)).2
      (dirs.foldl (relaxOne grid rows cols e m.2) (gmap, rest)).1 ∧
    aMeasure rows cols
      (dirs.foldl (relaxOne grid rows cols e m.2) (gmap, rest)).2
      (dirs.foldl (relaxOne grid rows cols e m.2) (gmap, rest)).1 <
      aMeasure rows cols open_set gmap := by
  obtain ⟨hmem, hrest, hmin⟩ := popMin_spec open_set m rest hpop
  obtain ⟨vc, hvc, _⟩ := hA.itemsKeys m hmem
  have hSI : ScanInv grid rows cols s e m.2 vc (gmap, rest) := by
    refine ⟨hA.keysNodup, hA.keysCells, hA.valsRange, hA.valsLB,
      ?_, ?_, ?_, hA.startZero, hvc⟩
    · intro it hit
      have hit2 : it ∈ open_set.erase m := by
        rw [← hrest]
        exact hit
      exact hA.itemsKeys it (List.mem_of_mem_erase hit2)
    · intro c v hv hcne
      rcases hA.relaxedOrPending c v hv with ⟨it, hit, hitc, hitf⟩ | hr
      · left
        refine ⟨it, ?_, hitc, hitf⟩
        rw [hrest]
        refine (List.mem_erase_of_ne ?_).mpr hit
        intro heq
        exact hcne (by rw [← hitc, heq])
      · exact Or.inr hr
    · intro v hv
      obtain ⟨it, hit, hite, hitf⟩ := hA.endFresh v hv
      refine ⟨it, ?_, hite, hitf⟩
      rw [hrest]
      refine (List.mem_erase_of_ne ?_).mpr hit
      intro heq
      exact hne (by rw [← hite, heq])
  obtain ⟨hSI2, hmono, hkeep, hnbs, hmeas⟩ :=
    scanFold_step grid rows cols s e m.2 vc dirs (fun d hd => hd)
      (gmap, rest) hSI
  constructor
  · refine ⟨hSI2.keysNodup, hSI2.keysCells, hSI2.valsRange, hSI2.valsLB,
      hSI2.itemsKeys, ?_, hSI2.endFresh, hSI2.startZero⟩
    intro c v hv
    by_cases hc : c = m.2
    · right
      intro n hn hnin hnfr
      obtain ⟨d, hd, hnd⟩ := hn
      subst hc
      have hveq : v = vc := by
        rw [hSI2.curVal] at hv
        injection hv.symm
      obtain ⟨w, hw, hwle⟩ := hnbs d hd (hnd ▸ hnin) (hnd ▸ hnfr)
      exact ⟨w, hnd ▸ hw, by omega⟩
    · exact hSI2.relaxedOrPending c v hv hc
  · have hol : rest.length + 1 = open_set.length := by
      rw [hrest, List.length_erase_of_mem hmem]
      have h1 : 0 < open_set.length :=
        List.length_pos.mpr (List.ne_nil_of_mem hmem)
      omega
    have h1 : aMeasure rows cols
        (dirs.foldl (relaxOne grid rows cols e m.2) (gmap, rest)).2
        (dirs.foldl (relaxOne grid rows cols e m.2) (gmap, rest)).1 =
        scanMeasure rows cols
          (dirs.foldl (relaxOne grid rows cols e m.2) (gmap, rest)) := rfl
    have h2 : scanMeasure rows cols (gmap, rest) <
        aMeasure rows cols open_set gmap := by
      unfold aMeasure scanMeasure
      dsimp only
      omega
    omega

/-- Step equation of the fueled A* loop. -/
theorem aStarLoop_succ (grid : List (List ℕ)) (rows cols : ℤ) (e : ℤ × ℤ)
    (fuel : ℕ) (open_set : List AItem) (gmap : GMap) :
    aStarLoop grid rows cols e (fuel + 1) open_set gmap =
      (match popMin open_set with
       | none => some (-1)
       | some (item, rest) =>
           if item.2 = e then some ((gLookup gmap item.2).getD 0)
           else
             let st := dirs.foldl (relaxOne grid rows cols e item.2) (gmap, rest)
             aStarLoop grid rows cols e fuel st.2 st.1) := rfl

/-- When every key of the dict has all its free in-bounds neighbors keyed,
the keys cover every free path starting at a key. -/
theorem keys_cover_path (grid : List (List ℕ)) (rows cols : ℤ) (gmap : GMap)
    (hclosed : ∀ c v, gLookup gmap c = some v →
      ∀ n, cellAdj c n → cellIn rows cols n → gridAt grid n ≠ 1 →
      ∃ w, gLookup gmap n = some w ∧ w ≤ v + 1) :
    ∀ p : List (ℤ × ℤ), IsFreePath grid rows cols p →
    ∀ c₀ v₀, p.head? = some c₀ → gLookup gmap c₀ = some v₀ →
    ∀ c ∈ p, ∃ w, gLookup gmap c = some w := by
  intro p
  induction p with
  | nil =>
      intro _ c₀ v₀ hh
      exact absurd hh (by simp)
  | cons a q ih =>
      intro hp c₀ v₀ hh hv c hc
      have ha : a = c₀ := by simpa using hh
      subst ha
      rcases List.mem_cons.mp hc with hcq | hcq
      · exact hcq ▸ ⟨v₀, hv⟩
      · rcases q with _ | ⟨b, q2⟩
        · simp at hcq
        · have hadj : cellAdj a b := (List.chain'_cons.mp hp.1).1
          have hbin := hp.2 b (by simp)
          obtain ⟨w, hw, _⟩ := hclosed a v₀ hv b hadj hbin.1 hbin.2
          have hp2 : IsFreePath grid rows cols (b :: q2) :=
            ⟨(List.chain'_cons.mp hp.1).2,
             fun x hx => hp.2 x (List.mem_cons_of_mem a hx)⟩
          exact ih hp2 b w rfl hw c hcq

/-- Completeness of the fueled loop: under the invariant, with fuel above
the measure, and with a free path from the start to the end cell, the loop
returns a nonnegative value. -/
theorem aStarLoop_completes (grid : List (List ℕ)) (rows cols : ℤ)
    (s e : ℤ × ℤ) (p : List (ℤ × ℤ))
    (hpath : IsFreePath grid rows cols p)
    (hhead : p.head? = some s) (hlast : p.getLast? = some e) :
    ∀ fuel open_set gmap, AInv grid rows cols s e open_set gmap →
      aMeasure rows cols open_set gmap < fuel →
      ∃ v, aStarLoop grid rows cols e fuel open_set gmap = some v ∧ 0 ≤ v := by
  intro fuel
  induction fuel with
  | zero =>
      intro o g _ h
      omega
  | succ f ih =>
      intro o g hA hlt
      rcases hpop : popMin o with _ | ⟨m, rest⟩
      · exfalso
        have hempty : o = [] := (popMin_eq_none o).mp hpop
        have hclosed : ∀ c v, gLookup g c = some v →
            ∀ n, cellAdj c n → cellIn rows cols n → gridAt grid n ≠ 1 →
            ∃ w, gLookup g n = some w ∧ w ≤ v + 1 := by
          intro c v hv
          rcases hA.relaxedOrPending c v hv with ⟨it, hit, _⟩ | hr
          · rw [hempty] at hit
            exact absurd hit (by simp)
          · exact hr
        have hemem : e ∈ p := by
          obtain ⟨hne2, heq⟩ :=
            List.mem_getLast?_eq_getLast (Option.mem_def.mpr hlast)
          rw [heq]
          exact List.getLast_mem hne2
        obtain ⟨w, hw⟩ := keys_cover_path grid rows cols g hclosed p hpath
          s 0 hhead hA.startZero e hemem
        obtain ⟨it, hit, _⟩ := hA.endFresh w hw
        rw [hempty] at hit
        exact absurd hit (by simp)
      · obtain ⟨hmem, hrest, hmin⟩ := popMin_spec o m rest hpop
        by_cases hme : m.2 = e
        · obtain ⟨v, hv, _⟩ := hA.itemsKeys m hmem
          refine ⟨v, ?_, (hA.valsRange _ (gLookup_mem _ _ _ hv)).1⟩
          rw [aStarLoop_succ, hpop]
          dsimp only
          rw [if_pos hme, hv]
          rfl
        · obtain ⟨hA2, hdec⟩ := aStar_iterate grid rows cols s e o g hA
            m rest hpop hme
          rw [aStarLoop_succ, hpop]
          dsimp only
          rw [if_neg hme]
          exact ih _ _ hA2 (by omega)

/-- Cardinality of the in-bounds cell set. -/
theorem cellsFin_card (n m : ℕ) :
    (cellsFin (n : ℤ) (m : ℤ)).card = n * m := by
  unfold cellsFin
  rw [Finset.card_product, Int.card_Ico, Int.card_Ico]
  simp

/-- Lookup in a one-entry dict at its key. -/
theorem gLookup_singleton_self (c : ℤ × ℤ) (v : ℤ) :
    gLookup [(c, v)] c = some v := by
  unfold gLookup
  rw [List.find?_cons_of_pos _ (by simp)]
  rfl

/-- Lookup in a one-entry dict at another key. -/
theorem gLookup_singleton_ne (c d : ℤ × ℤ) (v : ℤ) (h : c ≠ d) :
    gLookup [(c, v)] d = none := by
  unfold gLookup
  rw [List.find?_cons_of_neg _ (by simp [h]), List.find?_nil]
  rfl

/-- The initial state of a_star satisfies the loop invariant whenever the
start cell is in bounds. -/
theorem aStar_init (grid : List (List ℕ)) (rows cols : ℤ) (s e : ℤ × ℤ)
    (hs : cellIn rows cols s) :
    AInv grid rows cols s e [((0 : ℤ), s)] [(s, (0 : ℤ))] := by
  refine ⟨?_, ?_, ?_, ?_, ?_, ?_, ?_, ?_⟩
  · simp
  · intro p hp
    rw [List.mem_singleton] at hp
    rw [hp]
    exact hs
  · intro p hp
    rw [List.mem_singleton] at hp
    rw [hp]
    refine ⟨le_refl 0, ?_⟩
    rw [List.length_singleton]
    omega
  · intro p hp
    rw [List.mem_singleton] at hp
    rw [hp]
    dsimp only
    rw [manhattanZ_self]
  · intro it hit
    rw [List.mem_singleton] at hit
    subst hit
    exact ⟨0, gLookup_singleton_self s 0, Or.inr rfl⟩
  · intro c v hv
    by_cases hc : s = c
    · subst hc
      left
      exact ⟨((0 : ℤ), s), List.mem_singleton_self _, rfl, Or.inr rfl⟩
    · rw [gLookup_singleton_ne s c 0 hc] at hv
      exact Option.noConfusion hv
  · intro v hv
    by_cases hc : s = e
    · exact ⟨((0 : ℤ), s), List.mem_singleton_self _, hc, Or.inr rfl⟩
    · rw [gLookup_singleton_ne s e 0 hc] at hv
      exact Option.noConfusion hv
  · exact gLookup_singleton_self s 0

/-- The initial measure is below the fuel budget of a_star. -/
theorem aMeasure_init (n m : ℕ) (s : ℤ × ℤ) :
    aMeasure (n : ℤ) (m : ℤ) [((0 : ℤ), s)] [(s, (0 : ℤ))] <
      (n * m + 1) * (n * m + 1) + 3 := by
  unfold aMeasure
  rw [cellsFin_card, List.length_singleton, List.length_singleton]
  have hsum : ([((s : ℤ × ℤ), (0 : ℤ))].map (fun p => p.2.toNat)).sum = 0 := rfl
  rw [hsum]
  have hle : (n * m + 1) * (n * m - 1) ≤ (n * m + 1) * (n * m + 1) :=
    Nat.mul_le_mul_left _ (by omega)
  omega

/-- Completeness of a_star: a free path from the start cell to the end
cell guarantees a nonnegative result. -/
theorem a_star_completes (grid : List (List ℕ)) (s e : ℤ × ℤ)
    (p : List (ℤ × ℤ))
    (hpath : IsFreePath grid grid.length (grid.headD []).length p)
    (hhead : p.head? = some s) (hlast : p.getLast? = some e) :
    ∃ v, a_star grid s e = some v ∧ 0 ≤ v := by
  have hsp : s ∈ p := by
    rcases p with _ | ⟨a, q⟩
    · exact absurd hhead (by simp)
    · have ha : a = s := by simpa using hhead
      rw [← ha]
      exact List.mem_cons_self a q
  have hs : cellIn grid.length (grid.headD []).length s := (hpath.2 s hsp).1
  have hA := aStar_init grid grid.length (grid.headD []).length s e hs
  have hm : aMeasure grid.length (grid.headD []).length
      [((0 : ℤ), s)] [(s, (0 : ℤ))] < aStarFuel grid :=
    aMeasure_init grid.length (grid.headD []).length s
  exact aStarLoop_completes grid grid.length (grid.headD []).length s e p
    hpath hhead hlast (aStarFuel grid) [((0 : ℤ), s)] [(s, (0 : ℤ))] hA hm

/-- The obstacle-free grid holds 0 at every cell. -/
theorem emptyGrid_at (n : ℕ) (c : ℤ × ℤ) : gridAt (emptyGrid n) c = 0 := by
  unfold gridAt emptyGrid
  rcases h : (List.replicate n (List.replicate n (0 : ℕ))).get? c.1.toNat
    with _ | row
  · rfl
  · have hrow : row = List.replicate n 0 :=
      List.eq_of_mem_replicate (List.get?_mem h)
    subst hrow
    show ((List.replicate n (0 : ℕ)).get? c.2.toNat).getD 0 = 0
    rcases h2 : (List.replicate n (0 : ℕ)).get? c.2.toNat with _ | v
    · rfl
    · exact List.eq_of_mem_replicate (List.get?_mem h2)

/-- Manhattan distance from the origin is the coordinate sum. -/
theorem manhattanZ_origin (c : ℤ × ℤ) (h1 : 0 ≤ c.1) (h2 : 0 ≤ c.2) :
    manhattanZ ((0 : ℤ), (0 : ℤ)) c = c.1 + c.2 := by
  unfold manhattanZ
  dsimp only
  split_ifs <;> omega

/-- Manhattan distance to the far corner of the (m+2) by (m+2) grid. -/
theorem manhattanZ_corner (m : ℕ) (c : ℤ × ℤ)
    (h : cellIn ((m : ℤ) + 2) ((m : ℤ) + 2) c) :
    manhattanZ c ((m : ℤ) + 1, (m : ℤ) + 1) = 2 * (m : ℤ) + 2 - c.1 - c.2 := by
  obtain ⟨hx1, hx2, hy1, hy2⟩ := h
  unfold manhattanZ
  dsimp only
  split_ifs <;> omega

/-- First staircase cell. -/
theorem stairCell_zero (m : ℕ) : stairCell m 0 = ((0 : ℤ), (0 : ℤ)) := by
  unfold stairCell
  rw [if_pos (by omega)]
  rfl

/-- Last staircase cell is the far corner. -/
theorem stairCell_last (m : ℕ) :
    stairCell m (2 * m + 2) = ((m : ℤ) + 1, (m : ℤ) + 1) := by
  unfold stairCell
  rw [if_neg (by omega)]
  rw [Prod.mk.injEq]
  constructor
  · push_cast
    ring
  · rfl

/-- Coordinate sum of the k-th staircase cell. -/
theorem stairCell_sum (m k : ℕ) :
    (stairCell m k).1 + (stairCell m k).2 = (k : ℤ) := by
  unfold stairCell
  split_ifs <;> dsimp only <;> ring

/-- Staircase cells are in bounds. -/
theorem stairCell_in (m k : ℕ) (hk : k ≤ 2 * m + 2) :
    cellIn ((m : ℤ) + 2) ((m : ℤ) + 2) (stairCell m k) := by
  unfold stairCell cellIn
  split_ifs with h <;> dsimp only <;>
    refine ⟨?_, ?_, ?_, ?_⟩ <;> push_cast <;> omega

/-- Consecutive staircase cells are one axis step apart. -/
theorem stairCell_adj (m k : ℕ) (hk : k + 1 ≤ 2 * m + 2) :
    cellAdj (stairCell m k) (stairCell m (k + 1)) := by
  by_cases h : k + 1 ≤ m + 1
  · refine ⟨(0, 1), by simp [dirs], ?_⟩
    unfold stairCell
    rw [if_pos (show k ≤ m + 1 by omega), if_pos h]
    rw [Prod.mk.injEq]
    constructor
    · rfl
    · push_cast
      ring
  · refine ⟨(1, 0), by simp [dirs], ?_⟩
    by_cases h2 : k ≤ m + 1
    · unfold stairCell
      rw [if_neg h, if_pos h2]
      have hk2 : k = m + 1 := by omega
      subst hk2
      rw [Prod.mk.injEq]
      constructor
      · push_cast
        ring
      · push_cast
        ring
    · unfold stairCell
      rw [if_neg h, if_neg h2]
      rw [Prod.mk.injEq]
      constructor
      · push_cast
        ring
      · push_cast
        ring

/-- A predicate holding at 0 has a maximal witness below any bound. -/
theorem max_with_zero (P : ℕ → Prop) (B : ℕ) (h0 : P 0) :
    ∃ K, K ≤ B ∧ P K ∧ (K = B ∨ ¬ P (K + 1)) := by
  induction B with
  | zero => exact ⟨0, le_refl 0, h0, Or.inl rfl⟩
  | succ b ih =>
      obtain ⟨K, hKb, hPK, hd⟩ := ih
      rcases hd with rfl | hnp
      · by_cases h : P (K + 1)
        · exact ⟨K + 1, le_refl _, h, Or.inl rfl⟩
        · exact ⟨K, Nat.le_succ K, hPK, Or.inr h⟩
      · exact ⟨K, le_trans hKb (Nat.le_succ b), hPK, Or.inr hnp⟩

/-- On the empty grid, the heap always holds an entry with f_score at most
the Manhattan distance of the corners: walking the staircase, the greatest
keyed staircase index either owns a fresh heap entry with that f_score, or
is fully relaxed, which would key the next staircase index too. -/
theorem stair_good (m : ℕ) (o : List AItem) (g : GMap)
    (hA : AInv (emptyGrid (m + 2)) ((m : ℤ) + 2) ((m : ℤ) + 2)
      ((0 : ℤ), (0 : ℤ)) ((m : ℤ) + 1, (m : ℤ) + 1) o g) :
    ∃ it ∈ o, it.1 ≤ 2 * (m : ℤ) + 2 := by
  have hP0 : gLookup g (stairCell m 0) = some ((0 : ℕ) : ℤ) := by
    rw [stairCell_zero]
    exact_mod_cast hA.startZero
  obtain ⟨K, hKle, hPK0, hKmax⟩ := max_with_zero
    (fun k => gLookup g (stairCell m k) = some (k : ℤ)) (2 * m + 2) hP0
  have hPK : gLookup g (stairCell m K) = some (K : ℤ) := hPK0
  by_cases hKeq : K = 2 * m + 2
  case neg =>
    have hKlt : K < 2 * m + 2 := lt_of_le_of_ne hKle hKeq
    have hnp : ¬ (fun k => gLookup g (stairCell m k) = some (k : ℤ))
        (K + 1) := by
      rcases hKmax with h | h
      · exact absurd h hKeq
      · exact h
    rcases hA.relaxedOrPending (stairCell m K) (K : ℤ) hPK with
      ⟨it, hit, hitc, hitf⟩ | hr
    · refine ⟨it, hit, ?_⟩
      rcases hitf with hf | hf
      · rw [hf]
        have hman := manhattanZ_corner m (stairCell m K)
          (stairCell_in m K (by omega))
        have hsum := stairCell_sum m K
        rw [hman]
        omega
      · rw [hf]
        dsimp only
        omega
    · exfalso
      have hadj := stairCell_adj m K hKlt
      have hin := stairCell_in m (K + 1) (by omega)
      have hfree : gridAt (emptyGrid (m + 2)) (stairCell m (K + 1)) ≠ 1 := by
        rw [emptyGrid_at]
        omega
      obtain ⟨w, hw, hwle⟩ := hr _ hadj hin hfree
      have hlb := hA.valsLB _ (gLookup_mem _ _ _ hw)
      rw [manhattanZ_origin _ hin.1 hin.2.2.1, stairCell_sum] at hlb
      have hweq : w = ((K + 1 : ℕ) : ℤ) := by push_cast at hlb ⊢; omega
      rw [hweq] at hw
      exact hnp hw
  case pos =>
    rw [hKeq, stairCell_last] at hPK
    obtain ⟨it, hit, hite, hitf⟩ := hA.endFresh _ hPK
    refine ⟨it, hit, ?_⟩
    rcases hitf with hf | hf
    · rw [hf, manhattanZ_self]
      push_cast
      omega
    · rw [hf]
      dsimp only
      omega

/-- On the empty grid, under the invariant and with fuel above the
measure, the loop returns exactly the Manhattan distance of the two
corners. -/
theorem stairLoop (m : ℕ) : ∀ fuel (o : List AItem) (g : GMap),
    AInv (emptyGrid (m + 2)) ((m : ℤ) + 2) ((m : ℤ) + 2)
      ((0 : ℤ), (0 : ℤ)) ((m : ℤ) + 1, (m : ℤ) + 1) o g →
    aMeasure ((m : ℤ) + 2) ((m : ℤ) + 2) o g < fuel →
    aStarLoop (emptyGrid (m + 2)) ((m : ℤ) + 2) ((m : ℤ) + 2)
      ((m : ℤ) + 1, (m : ℤ) + 1) fuel o g = some (2 * (m : ℤ) + 2) := by
  intro fuel
  induction fuel with
  | zero =>
      intro o g _ h
      omega
  | succ f ih =>
      intro o g hA hlt
      obtain ⟨gd, hgd, hgdle⟩ := stair_good m o g hA
      rcases hpop : popMin o with _ | ⟨mi, rest⟩
      · rw [(popMin_eq_none o).mp hpop] at hgd
        exact absurd hgd (by simp)
      · obtain ⟨hmem, hrest, hmin⟩ := popMin_spec o mi rest hpop
        by_cases hme : mi.2 = ((m : ℤ) + 1, (m : ℤ) + 1)
        · obtain ⟨v, hv, hvf⟩ := hA.itemsKeys mi hmem
          have hlb := hA.valsLB _ (gLookup_mem _ _ _ hv)
          rw [hme] at hlb
          have hm1 : manhattanZ ((0 : ℤ), (0 : ℤ)) ((m : ℤ) + 1, (m : ℤ) + 1) =
              2 * (m : ℤ) + 2 := by
            unfold manhattanZ
            dsimp only
            split_ifs <;> omega
          rw [hm1] at hlb
          rcases hvf with hf | hf
          · rw [hme, manhattanZ_self] at hf
            have hminle := hmin gd hgd
            have hveq : v = 2 * (m : ℤ) + 2 := by omega
            rw [aStarLoop_succ, hpop]
            dsimp only
            rw [if_pos hme, hv, hveq]
            rfl
          · exfalso
            rw [hf] at hme
            have h1 : (0 : ℤ) = (m : ℤ) + 1 := congrArg Prod.fst hme
            omega
        · obtain ⟨hA2, hdec⟩ := aStar_iterate _ _ _ _ _ o g hA mi rest hpop hme
          rw [aStarLoop_succ, hpop]
          dsimp only
          rw [if_neg hme]
          exact ih _ _ hA2 (by omega)

/-- Neighbors are nodes of the graph. -/
theorem mem_nodesOf_of_mem_adjOf (g : Graph) (x n : ℤ) (h : n ∈ adjOf g x) :
    n ∈ nodesOf g := by
  unfold adjOf at h
  rcases hf : g.find? (fun p => p.1 == x) with _ | p
  · rw [hf] at h
    exact absurd h (by simp)
  · rw [hf] at h
    replace h : n ∈ p.2 := by simpa using h
    have hp : p ∈ g := List.mem_of_find?_eq_some hf
    clear hf
    induction g with
    | nil => simp at hp
    | cons q G ih =>
        rw [show nodesOf (q :: G) = q.1 :: (q.2 ++ nodesOf G) from rfl]
        rcases List.mem_cons.mp hp with hq | hq
        · subst hq
          simp [h]
        · simp [ih hq]

/-- Each adjacency list is no longer than the total adjacency length. -/
theorem adjOf_length_le (g : Graph) (x : ℤ) :
    (adjOf g x).length ≤ totalAdj g := by
  unfold adjOf
  rcases hf : g.find? (fun p => p.1 == x) with _ | p
  · rw [hf]
    simp
  · rw [hf]
    rw [show ((some p).map Prod.snd).getD ([] : List ℤ) = p.2 from rfl]
    have hp : p ∈ g := List.mem_of_find?_eq_some hf
    clear hf
    induction g with
    | nil => simp at hp
    | cons q G ih =>
        rw [show totalAdj (q :: G) = q.2.length + totalAdj G from rfl]
        rcases List.mem_cons.mp hp with hq | hq
        · subst hq
          omega
        · have := ih hq
          omega

/-- Unfolding equation of the BFS loop with positive fuel. -/
theorem bfsLoop_succ (g : Graph) (e : ℤ) (f : ℕ) (visited queue : List ℤ) :
    bfsLoop g e (f + 1) visited queue =
      (match queue with
       | [] => some false
       | node :: rest =>
           if node = e then some true
           else if node ∈ visited then bfsLoop g e f visited rest
           else
             bfsLoop g e f (visited ++ [node])
               (rest ++ (adjOf g node).filter
                 (fun n => decide (n ∉ visited ++ [node])))) := rfl

/-- Main BFS loop lemma: under the invariant and with fuel above the
measure, the loop terminates with the truth value of reachability of the
end node from the start node. -/
theorem bfsLoop_spec (g : Graph) (s e : ℤ) :
    ∀ (fuel : ℕ) (visited queue : List ℤ),
      BfsInv g s e visited queue →
      bfsMeasure g s visited queue < fuel →
      ∃ b, bfsLoop g e fuel visited queue = some b ∧ (b = true ↔ Reach g s e) := by
  intro fuel
  induction fuel with
  | zero => intro v q _ hm; omega
  | succ f ih =>
      intro visited queue hinv hm
      rcases queue with _ | ⟨node, rest⟩
      · refine ⟨false, rfl, ?_⟩
        simp only [Bool.false_eq_true, false_iff]
        intro hre
        have hclosed : ∀ x, Reach g s x → x ∈ visited := by
          intro x hx
          induction hx with
          | refl =>
              rcases hinv.start with h | h
              · exact h
              · simp at h
          | tail hab hbc ihx =>
              rcases hinv.frontier _ ihx _ hbc with h | h
              · exact h
              · simp at h
        exact hinv.eNot (hclosed e hre)
      · rw [bfsLoop_succ]
        by_cases he : node = e
        · refine ⟨true, by simp [he], ?_⟩
          simp only [true_iff]
          exact he ▸ hinv.qReach node (by simp)
        · by_cases hv : node ∈ visited
          · have hinv' : BfsInv g s e visited rest := by
              refine ⟨hinv.nodup, hinv.vU, ?_, hinv.vReach, ?_, hinv.eNot, ?_, ?_⟩
              · exact fun q hq => hinv.qU q (by simp [hq])
              · exact fun q hq => hinv.qReach q (by simp [hq])
              · intro v hvv n hn
                rcases hinv.frontier v hvv n hn with h | h
                · exact Or.inl h
                · rcases List.mem_cons.mp h with h1 | h1
                  · exact Or.inl (h1 ▸ hv)
                  · exact Or.inr h1
              · rcases hinv.start with h | h
                · exact Or.inl h
                · rcases List.mem_cons.mp h with h1 | h1
                  · exact Or.inl (h1 ▸ hv)
                  · exact Or.inr h1
            have hm' : bfsMeasure g s visited rest < f := by
              unfold bfsMeasure at hm ⊢
              simp only [List.length_cons] at hm
              omega
            obtain ⟨b, hb, hiff⟩ := ih visited rest hinv' hm'
            refine ⟨b, ?_, hiff⟩
            show (if node = e then some true
              else if node ∈ visited then bfsLoop g e f visited rest
              else bfsLoop g e f (visited ++ [node])
                (rest ++ (adjOf g node).filter
                  (fun n => decide (n ∉ visited ++ [node])))) = some b
            rw [if_neg he, if_pos hv]
            exact hb
          · have hqn : node ∈ s :: nodesOf g := hinv.qU node (by simp)
            have hrn : Reach g s node := hinv.qReach node (by simp)
            have hinv' : BfsInv g s e (visited ++ [node])
                (rest ++ (adjOf g node).filter
                  (fun n => decide (n ∉ visited ++ [node]))) := by
              refine ⟨?_, ?_, ?_, ?_, ?_, ?_, ?_, ?_⟩
              · simp [List.nodup_append, hinv.nodup, hv]
              · intro v hvv
                rcases List.mem_append.mp hvv with h | h
                · exact hinv.vU v h
                · rw [List.mem_singleton] at h
                  exact h ▸ hqn
              · intro q hq
                rcases List.mem_append.mp hq with h | h
                · exact hinv.qU q (by simp [h])
                · have h2 := List.mem_of_mem_filter h
                  exact List.mem_cons_of_mem _ (mem_nodesOf_of_mem_adjOf g node q h2)
              · intro v hvv
                rcases List.mem_append.mp hvv with h | h
                · exact hinv.vReach v h
                · rw [List.mem_singleton] at h
                  exact h ▸ hrn
              · intro q hq
                rcases List.mem_append.mp hq with h | h
                · exact hinv.qReach q (by simp [h])
                · have h2 := List.mem_of_mem_filter h
                  exact Relation.ReflTransGen.tail hrn h2
              · intro hcon
                rcases List.mem_append.mp hcon with h | h
                · exact hinv.eNot h
                · rw [List.mem_singleton] at h
                  exact he h.symm
              · intro v hvv n hn
                rcases List.mem_append.mp hvv with h | h
                · rcases hinv.frontier v h n hn with h1 | h1
                  · exact Or.inl (by simp [h1])
                  · rcases List.mem_cons.mp h1 with h2 | h2
                    · exact Or.inl (by simp [h2])
                    · exact Or.inr (by simp [h2])
                · rw [List.mem_singleton] at h
                  subst h
                  by_cases hm2 : n ∈ visited ++ [v]
                  · exact Or.inl hm2
                  · refine Or.inr (List.mem_append.mpr (Or.inr ?_))
                    rw [List.mem_filter]
                    exact ⟨hn, by simp [hm2]⟩
              · rcases hinv.start with h | h
                · exact Or.inl (by simp [h])
                · rcases List.mem_cons.mp h with h1 | h1
                  · exact Or.inl (by simp [h1])
                  · exact Or.inr (by simp [h1])
            have hm' : bfsMeasure g s (visited ++ [node])
                (rest ++ (adjOf g node).filter
                  (fun n => decide (n ∉ visited ++ [node]))) < f := by
              have hcard : ((s :: nodesOf g).toFinset \ visited.toFinset).card =
                  ((s :: nodesOf g).toFinset \ (visited ++ [node]).toFinset).card + 1 := by
                have hmemU : node ∈ (s :: nodesOf g).toFinset := by
                  rw [List.mem_toFinset]
                  exact hqn
                have hmemV : node ∉ visited.toFinset := by
                  rw [List.mem_toFinset]
                  exact hv
                have hsd : (s :: nodesOf g).toFinset \ (visited ++ [node]).toFinset =
                    ((s :: nodesOf g).toFinset \ visited.toFinset).erase node := by
                  rw [List.toFinset_append]
                  ext z
                  simp [Finset.mem_sdiff, Finset.mem_erase]
                  tauto
                rw [hsd, Finset.card_erase_of_mem (Finset.mem_sdiff.mpr ⟨hmemU, hmemV⟩)]
                have hpos : 0 < ((s :: nodesOf g).toFinset \ visited.toFinset).card :=
                  Finset.card_pos.mpr ⟨node, Finset.mem_sdiff.mpr ⟨hmemU, hmemV⟩⟩
                omega
              have hpush : ((adjOf g node).filter
                  (fun n => decide (n ∉ visited ++ [node]))).length ≤ totalAdj g :=
                le_trans (List.length_filter_le _ _) (adjOf_length_le g node)
              unfold bfsMeasure at hm ⊢
              rw [hcard] at hm
              rw [List.length_append]
              set m := ((s :: nodesOf g).toFinset \ (visited ++ [node]).toFinset).card
              rw [Nat.succ_mul] at hm
              simp only [List.length_cons] at hm
              omega
            obtain ⟨b, hb, hiff⟩ := ih _ _ hinv' hm'
            refine ⟨b, ?_, hiff⟩
            show (if node = e then some true
              else if node ∈ visited then bfsLoop g e f visited rest
              else bfsLoop g e f (visited ++ [node])
                (rest ++ (adjOf g node).filter
                  (fun n => decide (n ∉ visited ++ [node])))) = some b
            rw [if_neg he, if_neg hv]
            exact hb

/-- Correctness of bfs_connected: the loop always terminates with the truth
value of reachability. -/
theorem bfs_correct (g : Graph) (s e : ℤ) :
    ∃ b, bfs_connected g s e = some b ∧ (b = true ↔ Reach g s e) := by
  by_cases hse : s = e
  · refine ⟨true, by simp [bfs_connected, hse], ?_⟩
    simp only [true_iff]
    exact hse ▸ Relation.ReflTransGen.refl
  · have hinv : BfsInv g s e [] [s] := by
      refine ⟨List.nodup_nil, by simp, ?_, by simp, ?_, by simp, by simp, by simp⟩
      · intro q hq
        rw [List.mem_singleton] at hq
        simp [hq]
      · intro q hq
        rw [List.mem_singleton] at hq
        exact hq ▸ Relation.ReflTransGen.refl
    have hm : bfsMeasure g s [] [s] < bfsFuel g s := by
      unfold bfsMeasure bfsFuel
      simp only [List.length_singleton, List.toFinset_nil, Finset.sdiff_empty]
      set k := (s :: nodesOf g).toFinset.card * (totalAdj g + 1)
      omega
    obtain ⟨b, hb, hiff⟩ := bfsLoop_spec g s e (bfsFuel g s) [] [s] hinv hm
    exact ⟨b, by simp [bfs_connected, hse, hb], hiff⟩

/-- Reachability is symmetric on a symmetric adjacency structure. -/
theorem reach_symm (g : Graph)
    (hsym : ∀ x y : ℤ, y ∈ adjOf g x ↔ x ∈ adjOf g y) (a b : ℤ)
    (h : Reach g a b) : Reach g b a := by
  induction h with
  | refl => exact Relation.ReflTransGen.refl
  | tail hab hbc ihx =>
      exact Relation.ReflTransGen.head ((hsym _ _).mp hbc) ihx

/-! ## Claim theorems -/

/-- C1 counterexample: the claim asserts that a 10-word response scores
0.5 + 10/50*0.5 = 0.6, but compute_efficiency_score on a 10-word response
returns 0.5 (the code computes max(0.5, words/50), not 0.5 + words/100). -/
theorem c1_counterexample :
    wordCount tenWords = 10 ∧ compute_efficiency_score tenWords = 1/2 ∧
      ((1 : ℚ)/2 ≠ 3/5) :=
  ⟨rfl, rfl, by norm_num⟩

/-- C1 amended: compute_efficiency_score returns 1.0 for word counts between
50 and 200; below 50 it returns max(0.5, words/50) — reaching the 0.5 floor
already at 25 words, so a 10-word response scores 0.5; above 200 it returns
max(0.3, 1 - (words-200)/500), so a 700-word response scores 0.3. -/
theorem c1_amended (r : String) :
    (50 ≤ wordCount r → wordCount r ≤ 200 → compute_efficiency_score r = 1) ∧
    (wordCount r < 50 →
      compute_efficiency_score r = pyMax (1/2) ((wordCount r : ℚ) / 50)) ∧
    (200 < wordCount r →
      compute_efficiency_score r = pyMax (3/10) (1 - ((wordCount r : ℚ) - 200) / 500)) ∧
    compute_efficiency_score tenWords = 1/2 ∧
    compute_efficiency_score hundredWords = 1 ∧
    compute_efficiency_score sevenHundredWords = 3/10 := by
  refine ⟨?_, ?_, ?_, rfl, ?_, ?_⟩
  · intro h h2
    simp [compute_efficiency_score, h, h2]
  · intro h
    have h1 : ¬ (50 ≤ wordCount r ∧ wordCount r ≤ 200) := by omega
    simp [compute_efficiency_score, h1, h]
  · intro h
    have h1 : ¬ (50 ≤ wordCount r ∧ wordCount r ≤ 200) := by omega
    have h2 : ¬ (wordCount r < 50) := by omega
    simp [compute_efficiency_score, h1, h2]
  · simp only [compute_efficiency_score, hundredWords, wordCount_nWords]
    norm_num
  · simp only [compute_efficiency_score, sevenHundredWords, wordCount_nWords]
    norm_num [pyMax]

/-- C1 witness: the short-response branch of the amended claim evaluated on
the concrete ten-word response. -/
theorem c1_witness :
    compute_efficiency_score tenWords = pyMax (1/2) ((wordCount tenWords : ℚ) / 50) :=
  (c1_amended tenWords).2.1 (by decide)

/-- C2 counterexample: compute_spatialeval_score silently accepts the weight
triple (0.2, 0.2, 0.2), whose sum is 0.6 rather than 1.0, and returns 60.0;
the source performs no weight validation and raises no error. -/
theorem c2_counterexample :
    compute_spatialeval_score 1 1 1 (1/5, 1/5, 1/5) = 60 ∧
      (1 : ℚ)/5 + 1/5 + 1/5 ≠ 1 :=
  ⟨rfl, by norm_num⟩

/-- C2 amended: compute_spatialeval_score validates nothing: for every weight
triple it returns round(100 * (w_acc*accuracy + w_reason*reasoning +
w_eff*efficiency), 2); under the default weights (0.5, 0.3, 0.2) it returns
100.0 on component scores (1,1,1) and 0.0 on (0,0,0). -/
theorem c2_amended :
    (∀ a r e : ℚ, ∀ w : ℚ × ℚ × ℚ,
      compute_spatialeval_score a r e w =
        pyRound2 ((a * w.1 + r * w.2.1 + e * w.2.2) * 100)) ∧
    compute_spatialeval_score 1 1 1 defaultWeights = 100 ∧
    compute_spatialeval_score 0 0 0 defaultWeights = 0 :=
  ⟨fun _ _ _ _ => rfl, rfl, rfl⟩

/-- C3 counterexample: with a model callable that raises, the evaluation
loop aborts with the propagated exception instead of recording a
zero-accuracy result and continuing (the source has no try/except around
the model call). -/
theorem c3_counterexample :
    runTasks raisingModel [("coordinate_understanding", "easy", sampleTask)] =
      .error "API failure" := rfl

/-- C3 amended: if the model callable raises on some task's prompt, the
exception propagates out of the per-task loop: the whole run aborts with
that exception (no EvaluationResult is produced), even when every earlier
task's model call succeeded. -/
theorem c3_amended (model : ModelFn) (pre post : List (String × String × TaskRec))
    (tr : String × String × TaskRec) (e : String)
    (hok : ∀ x ∈ pre, ∃ resp, model x.2.2.prompt = .ok resp)
    (herr : model tr.2.2.prompt = .error e) :
    runTasks model (pre ++ tr :: post) = .error e := by
  induction pre with
  | nil =>
      obtain ⟨c, d, t⟩ := tr
      simp only [List.nil_append, runTasks]
      rw [herr]
      rfl
  | cons x xs ih =>
      obtain ⟨resp, hresp⟩ := hok x (by simp)
      obtain ⟨c, d, t⟩ := x
      have hrest := ih (fun y hy => hok y (by simp [hy]))
      simp only [List.cons_append, List.append_eq, runTasks]
      rw [hresp, hrest]
      rfl

/-- C3 witness: a run in which the first task's model call succeeds and
the second raises aborts with the second task's exception. -/
theorem c3_witness :
    runTasks flakyModel
      [("distance_computation", "easy", otherTask),
       ("coordinate_understanding", "easy", sampleTask)] = .error "boom" :=
  c3_amended flakyModel [("distance_computation", "easy", otherTask)] []
    ("coordinate_understanding", "easy", sampleTask) "boom"
    (by intro x hx; simp at hx; subst hx; exact ⟨"The answer is 5", rfl⟩) rfl

/-- C5 counterexample: Python renders the float 1e-05 in scientific
notation, str(1e-05) being the five characters of "1e-05"; the number
regex extracts the candidates 1 and -05 from that string, neither of which
is within tolerance of 0.00001, so the self-match round trip scores 0.0
rather than 1.0 for this numeric ground truth. -/
theorem c5_counterexample :
    scanFloats ("1e-05".data) = [1, -5] ∧
      compute_accuracy "1e-05" (.num (1/100000)) = 0 := by
  constructor
  · rfl
  · rw [compute_accuracy_num]
    rw [show (scanFloats ("1e-05" : String).data).reverse = [-5, 1] from rfl]
    rw [scanAnswer_cons,
      show checkCandidate (1/100000) (-5) = none by norm_num [checkCandidate, pyAbs]]
    rw [scanAnswer_cons,
      show checkCandidate (1/100000) 1 = none by norm_num [checkCandidate, pyAbs]]
    rfl

/-- C5 amended: the self-match round trip holds for every integer ground
truth: scoring str(g) against g yields accuracy 1.0, because the scanner
recovers the full decimal rendering as one candidate with exactly the value
g.  (For float ground truths the round trip can fail when str uses
scientific notation, as the counterexample shows.) -/
theorem c5_amended (g : ℤ) :
    compute_accuracy (pyIntStr g) (.num (g : ℚ)) = 1 := by
  rw [compute_accuracy_num]
  obtain ⟨hne, hdig⟩ := natChars_digits g.natAbs
  by_cases hneg : g < 0
  · have hdata : (pyIntStr g).data = '-' :: natChars g.natAbs := by
      rw [pyIntStr, if_pos hneg]
    rcases hl : natChars g.natAbs with _ | ⟨c, cs⟩
    · exact absurd hl hne
    · rw [hdata, hl]
      rw [scanFloats_neg_digits c cs (fun x hx => hdig x (hl ▸ hx))]
      have hval : dacc 0 (c :: cs) = g.natAbs := by
        rw [← hl]
        have := dacc_natChars g.natAbs 0
        simpa using this
      rw [List.reverse_singleton]
      refine scanAnswer_self _ _ ?_
      rw [hval]
      have habs : (g.natAbs : ℤ) = -g := Int.ofNat_natAbs_of_nonpos (le_of_lt hneg)
      calc -((g.natAbs : ℚ)) = -(((g.natAbs : ℤ) : ℚ)) := by norm_cast
        _ = -(((-g : ℤ) : ℚ)) := by rw [habs]
        _ = (g : ℚ) := by push_cast; ring
  · have hdata : (pyIntStr g).data = natChars g.toNat := by
      rw [pyIntStr, if_neg hneg]
    have htn : g.toNat = g.natAbs := by omega
    rcases hl : natChars g.natAbs with _ | ⟨c, cs⟩
    · exact absurd hl hne
    · rw [hdata, htn, hl]
      rw [scanFloats_digits c cs (fun x hx => hdig x (hl ▸ hx))]
      have hval : dacc 0 (c :: cs) = g.natAbs := by
        rw [← hl]
        have := dacc_natChars g.natAbs 0
        simpa using this
      rw [List.reverse_singleton]
      refine scanAnswer_self _ _ ?_
      rw [hval]
      have habs : (g.natAbs : ℤ) = g := Int.natAbs_of_nonneg (by omega)
      calc ((g.natAbs : ℚ)) = (((g.natAbs : ℤ) : ℚ)) := (Int.cast_natCast g.natAbs).symm
        _ = (g : ℚ) := by rw [habs]

/-- C6 counterexample: the claim asserts accuracy 0.0 for every ground
truth, but the string ground truth "text" is a substring of the fixed
response "completely unrelated text", so compute_accuracy returns 1.0. -/
theorem c6_counterexample :
    compute_accuracy "completely unrelated text" (.str "text") = 1 ∧ (1 : ℚ) ≠ 0 := by
  constructor
  · have h : strContains (pyStrip (strLower "completely unrelated text"))
        (pyStrip (strLower "text")) = true := rfl
    simp [compute_accuracy, h]
  · norm_num

/-- C6 amended: scoring the fixed response "completely unrelated text"
yields 0.0 for every numeric ground truth (the response contains no
digits); for a string ground truth it yields 0.0 whenever the lowercased,
stripped ground truth neither occurs in nor ends the response (otherwise,
as for "text", it yields 1.0); and for a list it yields 0.0 whenever no
member scores above 0.5. -/
theorem c6_amended :
    (∀ q : ℚ, compute_accuracy "completely unrelated text" (.num q) = 0) ∧
    (∀ s : String,
      strContains (pyStrip (strLower "completely unrelated text"))
        (pyStrip (strLower s)) = false →
      strEndsWith (pyStrip (strLower "completely unrelated text"))
        (pyStrip (strLower s)) = false →
      compute_accuracy "completely unrelated text" (.str s) = 0) ∧
    (∀ l : List PyVal,
      (∀ g ∈ l, compute_accuracy "completely unrelated text" g ≤ 1/2) →
      compute_accuracy "completely unrelated text" (.list l) = 0) := by
  refine ⟨?_, ?_, ?_⟩
  · intro q
    rw [compute_accuracy_num]
    rw [show scanFloats ("completely unrelated text" : String).data = [] from rfl]
    rfl
  · intro s h1 h2
    simp [compute_accuracy, h1, h2]
  · intro l h
    rw [compute_accuracy_list, anyAbovehalf_eq_false _ _ h]
    rfl

/-- C6 witness: the amended string case evaluated on the concrete ground
truth "france", which is neither contained in nor a suffix of the response. -/
theorem c6_witness :
    compute_accuracy "completely unrelated text" (.str "france") = 0 :=
  c6_amended.2.1 "france" rfl rfl

/-- C8: bfs_connected is reflexive for every adjacency structure (the start
equals end check returns True immediately), and symmetric on every
symmetric adjacency structure: with b listed as a neighbor of a exactly
when a is listed as a neighbor of b, bfs_connected(g, a, b) equals
bfs_connected(g, b, a) for all nodes a and b. -/
theorem c8_bfs_reflexive_symmetric :
    (∀ (g : Graph) (a : ℤ), bfs_connected g a a = some true) ∧
    (∀ g : Graph, (∀ x y : ℤ, y ∈ adjOf g x ↔ x ∈ adjOf g y) →
      ∀ a b : ℤ, bfs_connected g a b = bfs_connected g b a) := by
  constructor
  · intro g a
    unfold bfs_connected
    rw [if_pos rfl]
  · intro g hsym a b
    obtain ⟨b1, h1, hb1⟩ := bfs_correct g a b
    obtain ⟨b2, h2, hb2⟩ := bfs_correct g b a
    rw [h1, h2]
    have hiff : Reach g a b ↔ Reach g b a :=
      ⟨reach_symm g hsym a b, reach_symm g hsym b a⟩
    have : b1 = true ↔ b2 = true := by
      rw [hb1, hb2]
      exact hiff
    cases b1 <;> cases b2 <;> simp_all

/-- Adjacency table of the concrete witness graph. -/
theorem adjOf_gSym (x : ℤ) :
    adjOf gSym x = if x = 0 then [1] else if x = 1 then [0] else [] := by
  by_cases h0 : x = 0
  · subst h0
    rfl
  · by_cases h1 : x = 1
    · subst h1
      rfl
    · rw [if_neg h0, if_neg h1]
      unfold adjOf gSym
      rw [show List.find? (fun p => p.1 == x) [((0 : ℤ), [(1 : ℤ)]), (1, [0])] =
          List.find? (fun p => p.1 == x) [((1 : ℤ), [(0 : ℤ)])] from by
        rw [List.find?_cons_of_neg]
        simp [Ne.symm h0]]
      rw [List.find?_cons_of_neg]
      · rfl
      · simp [Ne.symm h1]

/-- C8 witness: the symmetry statement applied to the concrete symmetric
graph on nodes 0 and 1, at the node pair (0, 2) where 2 is absent from the
graph. -/
theorem c8_witness : bfs_connected gSym 0 2 = bfs_connected gSym 2 0 := by
  refine c8_bfs_reflexive_symmetric.2 gSym ?_ 0 2
  intro x y
  rw [adjOf_gSym x, adjOf_gSym y]
  by_cases hx0 : x = 0 <;> by_cases hx1 : x = 1 <;>
    by_cases hy0 : y = 0 <;> by_cases hy1 : y = 1 <;>
    simp_all

/-- C9 counterexample: with an empty requested category list, the unknown
difficulty "bogus" is accepted without a ValueError (the difficulty check
only runs inside the per-category loop) and the loader returns an empty
dataset. -/
theorem c9_counterexample :
    load_dataset fsEmpty (some []) (some ["bogus"]) = .ok [] ∧
      "bogus" ∉ DIFFICULTIES :=
  ⟨rfl, by decide⟩

/-- Difficulty validation lemma: an unknown requested difficulty makes the
inner loop raise. -/
theorem loadDiffs_cons (fs : FileSystem) (cat d0 : String) (ds : List String) :
    loadDiffs fs cat (d0 :: ds) =
      (if d0 ∉ DIFFICULTIES then .error ("Unknown difficulty: " ++ d0)
       else do
         let rest ← loadDiffs fs cat ds
         .ok (dictInsert rest d0 ((fs cat d0).getD []))) := rfl

theorem loadDiffs_error (fs : FileSystem) (cat : String) (diffs : List String)
    (d : String) (hd : d ∈ diffs) (hbad : d ∉ DIFFICULTIES) :
    ∃ e, loadDiffs fs cat diffs = .error e := by
  induction diffs with
  | nil => simp at hd
  | cons d0 ds ih =>
      by_cases h0 : d0 ∈ DIFFICULTIES
      · have hd' : d ∈ ds := by
          rcases List.mem_cons.mp hd with h | h
          · exact absurd (h ▸ h0) hbad
          · exact h
        obtain ⟨e, he⟩ := ih hd'
        refine ⟨e, ?_⟩
        rw [loadDiffs_cons, if_neg (not_not_intro h0), he]
        rfl
      · exact ⟨"Unknown difficulty: " ++ d0, by rw [loadDiffs_cons, if_pos h0]⟩

/-- Validity lemma: the inner loop succeeds when every requested difficulty
is known. -/
theorem loadDiffs_ok (fs : FileSystem) (cat : String) (diffs : List String)
    (h : ∀ d ∈ diffs, d ∈ DIFFICULTIES) :
    ∃ out, loadDiffs fs cat diffs = .ok out := by
  induction diffs with
  | nil => exact ⟨[], rfl⟩
  | cons d0 ds ih =>
      obtain ⟨out, hout⟩ := ih (fun d hd => h d (by simp [hd]))
      refine ⟨dictInsert out d0 ((fs cat d0).getD []), ?_⟩
      rw [loadDiffs_cons, if_neg (not_not_intro (h d0 (by simp))), hout]
      rfl

/-- C9 amended: load_dataset raises a ValueError whenever some requested
category is unknown; whenever at least one category is requested, all
requested categories are known and some requested difficulty is unknown, it
also raises (but with an empty requested category list the difficulty check
is skipped and an empty dataset is returned); when every requested category
and difficulty is known it raises nothing, and a missing per-pair task file
yields an empty task list rather than an error.  Evaluator.__init__ performs
this load before the run loop, so an invalid request fails before any task
is processed. -/
theorem c9_amended :
    (∀ (fs : FileSystem) (cats diffs : List String) (c : String),
      c ∈ cats → c ∉ CATEGORIES →
      ∃ e, load_dataset fs (some cats) (some diffs) = .error e) ∧
    (∀ (fs : FileSystem) (cats diffs : List String) (d : String),
      cats ≠ [] → (∀ c ∈ cats, c ∈ CATEGORIES) → d ∈ diffs → d ∉ DIFFICULTIES →
      ∃ e, load_dataset fs (some cats) (some diffs) = .error e) ∧
    (∀ (fs : FileSystem) (cats diffs : List String),
      (∀ c ∈ cats, c ∈ CATEGORIES) → (∀ d ∈ diffs, d ∈ DIFFICULTIES) →
      ∃ out, load_dataset fs (some cats) (some diffs) = .ok out) ∧
    (∀ (fs : FileSystem) (c d : String),
      c ∈ CATEGORIES → d ∈ DIFFICULTIES → fs c d = none →
      load_dataset fs (some [c]) (some [d]) = .ok [(c, [(d, [])])]) := by
  have hcons : ∀ (fs : FileSystem) (diffs : List String) (c0 : String)
      (cs : List String),
      loadCats fs diffs (c0 :: cs) =
        (if c0 ∉ CATEGORIES then .error ("Unknown category: " ++ c0)
         else do
           let inner ← loadDiffs fs c0 diffs
           let rest ← loadCats fs diffs cs
           .ok (dictInsert rest c0 inner)) := fun _ _ _ _ => rfl
  refine ⟨?_, ?_, ?_, ?_⟩
  · intro fs cats diffs c hc hbad
    induction cats with
    | nil => simp at hc
    | cons c0 cs ih =>
        by_cases h0 : c0 ∈ CATEGORIES
        · have hc' : c ∈ cs := by
            rcases List.mem_cons.mp hc with h | h
            · exact absurd (h ▸ h0) hbad
            · exact h
          obtain ⟨e, he⟩ := ih hc'
          rcases hdi : loadDiffs fs c0 diffs with e0 | out
          · refine ⟨e0, ?_⟩
            show loadCats fs diffs (c0 :: cs) = .error e0
            rw [hcons, if_neg (not_not_intro h0), hdi]
            rfl
          · refine ⟨e, ?_⟩
            have he' : loadCats fs diffs cs = .error e := he
            show loadCats fs diffs (c0 :: cs) = .error e
            rw [hcons, if_neg (not_not_intro h0), hdi, he']
            rfl
        · refine ⟨"Unknown category: " ++ c0, ?_⟩
          show loadCats fs diffs (c0 :: cs) = _
          rw [hcons, if_pos h0]
  · intro fs cats diffs d hne hgood hd hbad
    cases cats with
    | nil => exact absurd rfl hne
    | cons c0 cs =>
        obtain ⟨e, he⟩ := loadDiffs_error fs c0 diffs d hd hbad
        refine ⟨e, ?_⟩
        show loadCats fs diffs (c0 :: cs) = .error e
        rw [hcons, if_neg (not_not_intro (hgood c0 (by simp))), he]
        rfl
  · intro fs cats diffs hc hd
    induction cats with
    | nil => exact ⟨[], rfl⟩
    | cons c0 cs ih =>
        obtain ⟨inner, hinner⟩ := loadDiffs_ok fs c0 diffs hd
        obtain ⟨rest, hrest⟩ := ih (fun c h => hc c (by simp [h]))
        have hrest' : loadCats fs diffs cs = .ok rest := hrest
        refine ⟨dictInsert rest c0 inner, ?_⟩
        show loadCats fs diffs (c0 :: cs) = _
        rw [hcons, if_neg (not_not_intro (hc c0 (by simp))), hinner, hrest']
        rfl
  · intro fs c d hc hd hnone
    show loadCats fs [d] [c] = _
    rw [hcons, if_neg (not_not_intro hc), loadDiffs_cons,
      if_neg (not_not_intro hd), hnone]
    rfl

/-- C9 witness: the missing-file case of the amended claim on a concrete
valid request against the empty file system. -/
theorem c9_witness :
    load_dataset fsEmpty (some ["real_estate"]) (some ["hard"]) =
      .ok [("real_estate", [("hard", [])])] :=
  c9_amended.2.2.2 fsEmpty "real_estate" "hard" (by decide) (by decide) rfl

/-- C10: compute_reasoning_score always lies in the closed interval
[0.5, 1]: the 0.5 base is a lower bound since every bonus is nonnegative,
and the final clamp bounds the result by 1. -/
theorem c10_reasoning_bounds (r : String) :
    1/2 ≤ compute_reasoning_score r ∧ compute_reasoning_score r ≤ 1 := by
  have hcnt : (0 : ℚ) ≤ (indicatorCount r : ℚ) * (5/100) := by positivity
  unfold compute_reasoning_score pyMin
  dsimp only
  constructor <;> split_ifs <;> linarith

/-- Step equation of the obstacle-draw loop. -/
theorem drawObstacles_succ (t fuel : ℕ) (σ : ℕ → ℕ) (i : ℕ)
    (acc : List (ℕ × ℕ)) :
    drawObstacles t (fuel + 1) σ i acc =
      (if acc.length < t then
        drawObstacles t fuel σ (i + 2)
          (if (randint 1 4 σ i, randint 1 4 σ (i + 1)) ∈ acc then acc
           else acc ++ [(randint 1 4 σ i, randint 1 4 σ (i + 1))])
      else some (acc, i)) := rfl

/-- On the constant stream, once the only drawable cell is in the set, the
draw loop can never finish. -/
theorem drawObstacles_stuck_aux : ∀ fuel i (acc : List (ℕ × ℕ)),
    acc.length < 3 → ((1 : ℕ), (1 : ℕ)) ∈ acc →
    drawObstacles 3 fuel zeroStream i acc = none := by
  intro fuel
  induction fuel with
  | zero =>
      intro i acc _ _
      rfl
  | succ f ih =>
      intro i acc hlen hmem
      rw [drawObstacles_succ, if_pos hlen]
      have hr : ∀ j, randint 1 4 zeroStream j = 1 := fun j => rfl
      rw [hr i, hr (i + 1), if_pos hmem]
      exact ih (i + 2) acc hlen hmem

/-- On the constant stream the draw loop exhausts any fuel. -/
theorem drawObstacles_stuck (fuel i : ℕ) :
    drawObstacles 3 fuel zeroStream i [] = none := by
  cases fuel with
  | zero => rfl
  | succ f =>
      rw [drawObstacles_succ, if_pos (by decide)]
      have hr : ∀ j, randint 1 4 zeroStream j = 1 := fun j => rfl
      rw [hr i, hr (i + 1), if_neg (by simp)]
      exact drawObstacles_stuck_aux f (i + 2) [((1 : ℕ), (1 : ℕ))]
        (by decide) (by simp)

/-- Every drawn obstacle lies in the 1..4 interior. -/
theorem drawObstacles_range (t : ℕ) : ∀ (fuel : ℕ) (σ : ℕ → ℕ) (i : ℕ)
    (acc : List (ℕ × ℕ)),
    (∀ c ∈ acc, 1 ≤ c.1 ∧ c.1 ≤ 4 ∧ 1 ≤ c.2 ∧ c.2 ≤ 4) →
    ∀ out j, drawObstacles t fuel σ i acc = some (out, j) →
    ∀ c ∈ out, 1 ≤ c.1 ∧ c.1 ≤ 4 ∧ 1 ≤ c.2 ∧ c.2 ≤ 4 := by
  intro fuel
  induction fuel with
  | zero =>
      intro σ i acc _ out j h
      exact Option.noConfusion h
  | succ f ih =>
      intro σ i acc hacc out j h
      rw [drawObstacles_succ] at h
      by_cases hlen : acc.length < t
      · rw [if_pos hlen] at h
        have hb : ∀ j2, 1 ≤ randint 1 4 σ j2 ∧ randint 1 4 σ j2 ≤ 4 := by
          intro j2
          have he : randint 1 4 σ j2 = 1 + σ j2 % 4 := rfl
          have hm := Nat.mod_lt (σ j2) (show 0 < 4 by decide)
          rw [he]
          omega
        by_cases hmem : (randint 1 4 σ i, randint 1 4 σ (i + 1)) ∈ acc
        · rw [if_pos hmem] at h
          exact ih σ (i + 2) acc hacc out j h
        · rw [if_neg hmem] at h
          refine ih σ (i + 2) _ ?_ out j h
          intro x hx
          rcases List.mem_append.mp hx with hx | hx
          · exact hacc x hx
          · rw [List.mem_singleton] at hx
            subst hx
            exact ⟨(hb i).1, (hb i).2, (hb (i + 1)).1, (hb (i + 1)).2⟩
      · rw [if_neg hlen] at h
        have h3 : (acc, i) = (out, j) := by injection h
        have h4 : acc = out := congrArg Prod.fst h3
        subst h4
        exact hacc

/-- The generated grid holds 1 exactly at the drawn obstacle cells. -/
theorem gridAt_gridOf (obs : List (ℕ × ℕ)) (r c : ℕ) (hr : r < 6)
    (hc : c < 6) :
    gridAt (gridOf obs) ((r : ℤ), (c : ℤ)) =
      if (r, c) ∈ obs then 1 else 0 := by
  have h1 : (gridOf obs).get? r = some ((List.range 6).map
      (fun cc => if (r, cc) ∈ obs then (1 : ℕ) else 0)) := by
    unfold gridOf
    rw [List.get?_map, List.get?_range hr]
    rfl
  have h2 : ((List.range 6).map
      (fun cc => if (r, cc) ∈ obs then (1 : ℕ) else 0)).get? c =
      some (if (r, c) ∈ obs then 1 else 0) := by
    rw [List.get?_map, List.get?_range hc]
    rfl
  show ((((gridOf obs).get? r).getD []).get? c).getD 0 =
    if (r, c) ∈ obs then 1 else 0
  rw [h1]
  show (((List.range 6).map
    (fun cc => if (r, cc) ∈ obs then (1 : ℕ) else 0)).get? c).getD 0 =
    if (r, c) ∈ obs then 1 else 0
  rw [h2]
  rfl

/-- The border walk is a free path of the generated grid whenever the
obstacles sit in the 1..4 interior. -/
theorem borderPath_free (obs : List (ℕ × ℕ))
    (hobs : ∀ c ∈ obs, 1 ≤ c.1 ∧ c.1 ≤ 4 ∧ 1 ≤ c.2 ∧ c.2 ≤ 4) :
    IsFreePath (gridOf obs) 6 6 borderPath := by
  have hrow : ∀ k : ℕ, ((0 : ℕ), k) ∉ obs := by
    intro k hmem
    have h1 := (hobs _ hmem).1
    dsimp only at h1
    omega
  have hcol : ∀ k : ℕ, (k, (5 : ℕ)) ∉ obs := by
    intro k hmem
    have h1 := (hobs _ hmem).2.2.2
    dsimp only at h1
    omega
  constructor
  · show List.Chain' cellAdj borderPath
    unfold borderPath
    simp only [List.chain'_cons, List.chain'_singleton, and_true]
    decide
  · intro c hc
    simp only [borderPath, List.mem_cons, List.not_mem_nil, or_false] at hc
    rcases hc with rfl | rfl | rfl | rfl | rfl | rfl | rfl | rfl | rfl |
      rfl | rfl
    · exact ⟨by decide, by
        rw [show ((0 : ℤ), (0 : ℤ)) = (((0 : ℕ) : ℤ), ((0 : ℕ) : ℤ)) from rfl,
          gridAt_gridOf obs 0 0 (by omega) (by omega), if_neg (hrow 0)]
        decide⟩
    · exact ⟨by decide, by
        rw [show ((0 : ℤ), (1 : ℤ)) = (((0 : ℕ) : ℤ), ((1 : ℕ) : ℤ)) from rfl,
          gridAt_gridOf obs 0 1 (by omega) (by omega), if_neg (hrow 1)]
        decide⟩
    · exact ⟨by decide, by
        rw [show ((0 : ℤ), (2 : ℤ)) = (((0 : ℕ) : ℤ), ((2 : ℕ) : ℤ)) from rfl,
          gridAt_gridOf obs 0 2 (by omega) (by omega), if_neg (hrow 2)]
        decide⟩
    · exact ⟨by decide, by
        rw [show ((0 : ℤ), (3 : ℤ)) = (((0 : ℕ) : ℤ), ((3 : ℕ) : ℤ)) from rfl,
          gridAt_gridOf obs 0 3 (by omega) (by omega), if_neg (hrow 3)]
        decide⟩
    · exact ⟨by decide, by
        rw [show ((0 : ℤ), (4 : ℤ)) = (((0 : ℕ) : ℤ), ((4 : ℕ) : ℤ)) from rfl,
          gridAt_gridOf obs 0 4 (by omega) (by omega), if_neg (hrow 4)]
        decide⟩
    · exact ⟨by decide, by
        rw [show ((0 : ℤ), (5 : ℤ)) = (((0 : ℕ) : ℤ), ((5 : ℕ) : ℤ)) from rfl,
          gridAt_gridOf obs 0 5 (by omega) (by omega), if_neg (hrow 5)]
        decide⟩
    · exact ⟨by decide, by
        rw [show ((1 : ℤ), (5 : ℤ)) = (((1 : ℕ) : ℤ), ((5 : ℕ) : ℤ)) from rfl,
          gridAt_gridOf obs 1 5 (by omega) (by omega), if_neg (hcol 1)]
        decide⟩
    · exact ⟨by decide, by
        rw [show ((2 : ℤ), (5 : ℤ)) = (((2 : ℕ) : ℤ), ((5 : ℕ) : ℤ)) from rfl,
          gridAt_gridOf obs 2 5 (by omega) (by omega), if_neg (hcol 2)]
        decide⟩
    · exact ⟨by decide, by
        rw [show ((3 : ℤ), (5 : ℤ)) = (((3 : ℕ) : ℤ), ((5 : ℕ) : ℤ)) from rfl,
          gridAt_gridOf obs 3 5 (by omega) (by omega), if_neg (hcol 3)]
        decide⟩
    · exact ⟨by decide, by
        rw [show ((4 : ℤ), (5 : ℤ)) = (((4 : ℕ) : ℤ), ((5 : ℕ) : ℤ)) from rfl,
          gridAt_gridOf obs 4 5 (by omega) (by omega), if_neg (hcol 4)]
        decide⟩
    · exact ⟨by decide, by
        rw [show ((5 : ℤ), (5 : ℤ)) = (((5 : ℕ) : ℤ), ((5 : ℕ) : ℤ)) from rfl,
          gridAt_gridOf obs 5 5 (by omega) (by omega), if_neg (hcol 5)]
        decide⟩

/-- Unfolding equation of the medium navigation generator. -/
theorem genNavMedium_eq (budget fuel : ℕ) (σ : ℕ → ℕ) (i : ℕ) :
    genNavMedium budget fuel σ i =
      (match drawObstacles (3 + σ i % 4) fuel σ (i + 1) [] with
       | none => none
       | some (obs, j) =>
           match a_star (gridOf obs) ((0 : ℤ), (0 : ℤ)) ((5 : ℤ), (5 : ℤ)) with
           | none => none
           | some v =>
               if v = -1 then
                 match budget with
                 | 0 => none
                 | b + 1 => genNavMedium b fuel σ j
               else some { obstacles := obs, path_length := v }) := by
  conv_lhs => unfold genNavMedium

/-- C4 counterexample: the claim asserts that medium pathfinding generation
terminates for every random stream; on the constant stream the obstacle
draw loop never completes its set, so no retry budget and no fuel make the
generator finish. -/
theorem c4_counterexample :
    ¬ ∃ (budget fuel : ℕ) (t : NavResult),
      genNavMedium budget fuel zeroStream 0 = some t := by
  rintro ⟨budget, fuel, t, ht⟩
  rw [genNavMedium_eq, show (3 + zeroStream 0 % 4) = 3 from rfl,
    drawObstacles_stuck fuel (0 + 1)] at ht
  exact Option.noConfusion ht

/-- C4 amended: the degenerate-instance retry of the source is an uncapped
recursion, but the retry branch is dead: whenever the obstacle-draw loop
finishes, every drawn obstacle lies in the 1..4 interior, the border walk
is free, and A* returns a nonnegative length, so generation succeeds
already with retry budget 0; generation fails to terminate only through
the draw loop itself. -/
theorem c4_amended (budget fuel : ℕ) (σ : ℕ → ℕ) (i : ℕ)
    (obs : List (ℕ × ℕ)) (j : ℕ)
    (hdraw : drawObstacles (3 + σ i % 4) fuel σ (i + 1) [] = some (obs, j)) :
    ∃ v : ℤ, 0 ≤ v ∧
      genNavMedium budget fuel σ i = some ⟨obs, v⟩ ∧
      genNavMedium 0 fuel σ i = some ⟨obs, v⟩ := by
  have hobs : ∀ c ∈ obs, 1 ≤ c.1 ∧ c.1 ≤ 4 ∧ 1 ≤ c.2 ∧ c.2 ≤ 4 :=
    drawObstacles_range _ fuel σ (i + 1) []
      (fun c hc => absurd hc (List.not_mem_nil c)) obs j hdraw
  have hpath := borderPath_free obs hobs
  obtain ⟨v, hv, hv0⟩ := a_star_completes (gridOf obs) ((0 : ℤ), (0 : ℤ))
    ((5 : ℤ), (5 : ℤ)) borderPath hpath rfl rfl
  have hgen : ∀ b, genNavMedium b fuel σ i = some ⟨obs, v⟩ := by
    intro b
    rw [genNavMedium_eq, hdraw]
    dsimp only
    rw [hv]
    dsimp only
    rw [if_neg (by omega)]
  exact ⟨v, hv0, hgen budget, hgen 0⟩

/-- C4 witness: a stream drawing obstacle count 3 and the diagonal cells
(2,2), (3,3), (4,4); the draw finishes within fuel 4 and generation
succeeds with no retry. -/
theorem c4_witness :
    drawObstacles (3 + sigmaNav 0 % 4) 4 sigmaNav (0 + 1) [] =
        some ([(2, 2), (3, 3), (4, 4)], 7) ∧
    ∃ v : ℤ, 0 ≤ v ∧
      genNavMedium 5 4 sigmaNav 0 = some ⟨[(2, 2), (3, 3), (4, 4)], v⟩ ∧
      genNavMedium 0 4 sigmaNav 0 = some ⟨[(2, 2), (3, 3), (4, 4)], v⟩ :=
  ⟨rfl, c4_amended 5 4 sigmaNav 0 [(2, 2), (3, 3), (4, 4)] 7 rfl⟩

/-- C7: on an obstacle-free N by N grid the shortest-path operation from
(0,0) to (N-1,N-1) returns exactly 2*(N-1), the Manhattan distance of the
two corners, for every N at least 1. -/
theorem c7_astar_manhattan (n : ℕ) (hn : 1 ≤ n) :
    a_star (emptyGrid n) ((0 : ℤ), (0 : ℤ)) ((n : ℤ) - 1, (n : ℤ) - 1) =
      some (2 * ((n : ℤ) - 1)) := by
  rcases n with _ | _ | m
  · omega
  · rfl
  · have hinit : AInv (emptyGrid (m + 2)) ((m : ℤ) + 2) ((m : ℤ) + 2)
        ((0 : ℤ), (0 : ℤ)) ((m : ℤ) + 1, (m : ℤ) + 1)
        [((0 : ℤ), ((0 : ℤ), (0 : ℤ)))] [(((0 : ℤ), (0 : ℤ)), (0 : ℤ))] := by
      apply aStar_init
      unfold cellIn
      refine ⟨le_refl 0, by omega, le_refl 0, by omega⟩
    have hfuel : aMeasure ((m : ℤ) + 2) ((m : ℤ) + 2)
        [((0 : ℤ), ((0 : ℤ), (0 : ℤ)))] [(((0 : ℤ), (0 : ℤ)), (0 : ℤ))] <
        aStarFuel (emptyGrid (m + 2)) := by
      have hf2 : aStarFuel (emptyGrid (m + 2)) =
          ((m + 2) * (m + 2) + 1) * ((m + 2) * (m + 2) + 1) + 3 := by
        unfold aStarFuel emptyGrid
        rw [List.length_replicate]
        rw [show (List.replicate (m + 2) (List.replicate (m + 2) (0 : ℕ))).headD
          [] = List.replicate (m + 2) (0 : ℕ) from rfl]
        rw [List.length_replicate]
      rw [hf2]
      exact aMeasure_init (m + 2) (m + 2) ((0 : ℤ), (0 : ℤ))
    have hstep := stairLoop m (aStarFuel (emptyGrid (m + 2)))
      [((0 : ℤ), ((0 : ℤ), (0 : ℤ)))] [(((0 : ℤ), (0 : ℤ)), (0 : ℤ))]
      hinit hfuel
    have hL : (emptyGrid (m + 2)).length = m + 2 := by
      unfold emptyGrid
      exact List.length_replicate _ _
    have hH : ((emptyGrid (m + 2)).headD []).length = m + 2 := by
      rw [show (emptyGrid (m + 2)).headD [] = List.replicate (m + 2) (0 : ℕ)
        from rfl]
      exact List.length_replicate _ _
    show aStarLoop (emptyGrid (m + 2)) ((emptyGrid (m + 2)).length : ℤ)
      (((emptyGrid (m + 2)).headD []).length : ℤ)
      (((m + 2 : ℕ) : ℤ) - 1, ((m + 2 : ℕ) : ℤ) - 1)
      (aStarFuel (emptyGrid (m + 2)))
      [((0 : ℤ), ((0 : ℤ), (0 : ℤ)))] [(((0 : ℤ), (0 : ℤ)), (0 : ℤ))] =
      some (2 * (((m + 2 : ℕ) : ℤ) - 1))
    rw [hL, hH]
    have e1 : ((m + 2 : ℕ) : ℤ) = (m : ℤ) + 2 := by push_cast; ring
    rw [e1]
    have e3 : (2 : ℤ) * ((m : ℤ) + 2 - 1) = 2 * (m : ℤ) + 2 := by ring
    rw [e3]
    have e2 : (m : ℤ) + 2 - 1 = (m : ℤ) + 1 := by ring
    rw [e2]
    exact hstep

/-- C7 witness: the exactness statement applied to the 3 by 3 empty grid,
whose shortest corner-to-corner path has length 4. -/
theorem c7_witness :
    1 ≤ 3 ∧ a_star (emptyGrid 3) ((0 : ℤ), (0 : ℤ))
      (((3 : ℕ) : ℤ) - 1, ((3 : ℕ) : ℤ) - 1) =
      some (2 * (((3 : ℕ) : ℤ) - 1)) :=
  ⟨by omega, c7_astar_manhattan 3 (by omega)⟩

end SpatialEval
